import Mathlib

/-- Str is the model of a Python `str`: a list of characters. -/
abbrev Str := List Char

/-- toL converts a Lean string literal to the `List Char` model. -/
def toL (s : String) : Str := s.data

/-- pyIsSpace recognises the whitespace characters removed by
Python's `str.strip()`. -/
def pyIsSpace (c : Char) : Bool :=
  c = ' ' || c = '\t' || c = '\n' || c = '\x0d' || c = '\x0b' || c = '\x0c'

/-- pyStrip models Python `str.strip()`: remove leading and trailing
whitespace. -/
def pyStrip (s : Str) : Str :=
  ((s.dropWhile pyIsSpace).reverse.dropWhile pyIsSpace).reverse

/-- leadsWith pat s is true when `pat` is a leading segment of `s`
(the elementary test underlying Python's `in`, `find`, `replace`, `split`). -/
def leadsWith : Str → Str → Bool
  | [], _ => true
  | _ :: _, [] => false
  | p :: ps, c :: cs => p = c && leadsWith ps cs

/-- containsSub pat s models Python `pat in s` (substring test). -/
def containsSub (pat : Str) : Str → Bool
  | [] => pat.isEmpty
  | c :: cs => leadsWith pat (c :: cs) || containsSub pat cs

/-- replaceGo is the scanner behind `replaceAll`; in state `k+1` it is in
the middle of a consumed occurrence of the pattern and drops `k+1` more
characters before scanning again. -/
def replaceGo (pat rep : Str) : Nat → Str → Str
  | _, [] => []
  | Nat.succ k, _ :: cs => replaceGo pat rep k cs
  | 0, c :: cs =>
    if leadsWith pat (c :: cs) ∧ pat ≠ [] then
      rep ++ replaceGo pat rep (pat.length - 1) cs
    else
      c :: replaceGo pat rep 0 cs

/-- replaceAll pat rep s models Python `s.replace(pat, rep)` for non-empty
`pat`: all non-overlapping occurrences are replaced, scanning left to
right.  (For empty `pat` the model leaves `s` unchanged; the source never
calls `replace` with an empty pattern.) -/
def replaceAll (pat rep s : Str) : Str := replaceGo pat rep 0 s

/-- splitGo is the scanner behind `splitOnL`, with the same skip-counter
convention as `replaceGo`. -/
def splitGo (pat : Str) : Nat → Str → List Str
  | _, [] => [[]]
  | Nat.succ k, _ :: cs => splitGo pat k cs
  | 0, c :: cs =>
    if leadsWith pat (c :: cs) ∧ pat ≠ [] then
      [] :: splitGo pat (pat.length - 1) cs
    else
      match splitGo pat 0 cs with
      | [] => [[c]]
      | h :: t => (c :: h) :: t

/-- splitOnL pat s models Python `s.split(pat)` for non-empty `pat`:
the pieces between non-overlapping occurrences of `pat`, scanning left to
right. -/
def splitOnL (pat s : Str) : List Str := splitGo pat 0 s

/-- joinSep sep pieces models Python `sep.join(pieces)`. -/
def joinSep (sep : Str) : List Str → Str
  | [] => []
  | [x] => x
  | x :: y :: t => x ++ sep ++ joinSep sep (y :: t)

/-- findSub pat s models Python `s.find(pat)`: the index of the leftmost
occurrence of `pat` in `s`, or `none` when there is no occurrence. -/
def findSub (pat : Str) : Str → Option Nat
  | [] => if pat.isEmpty then some 0 else none
  | c :: cs =>
    if leadsWith pat (c :: cs) then some 0
    else (findSub pat cs).map (· + 1)

/-- joinL concatenates a list of strings (Python `"".join`). -/
def joinL (l : List Str) : Str := l.flatten

/-- nb c is true when `c` may appear inside a bracket placeholder name
(the regex character class `[^\[\]]`). -/
def nb (c : Char) : Bool := c ≠ '[' && c ≠ ']'

/-- Seg is one segment of a scanned paragraph text: a literal character or
a bracket-delimited token `[name]`. -/
inductive Seg where
  | lit (c : Char)
  | tok (name : Str)
deriving DecidableEq, Repr

/-- tokStr name is the literal text `[name]` of a bracket token. -/
def tokStr (name : Str) : Str := '[' :: name ++ [']']

/-- segStr renders one segment back to text. -/
def segStr : Seg → Str
  | Seg.lit c => [c]
  | Seg.tok name => tokStr name

/-- render renders a segment list back to text. -/
def render (l : List Seg) : Str := joinL (l.map segStr)

/-- segsGo is the regex scan with the skip-counter convention of
`replaceGo`: in state `k+1` the scanner is inside an already-matched
token and drops `k+1` more characters. -/
def segsGo : Nat → Str → List Seg
  | _, [] => []
  | Nat.succ k, _ :: cs => segsGo k cs
  | 0, c :: cs =>
    if c = '[' then
      match cs.dropWhile nb with
      | ']' :: _ =>
        if (cs.takeWhile nb).isEmpty then
          Seg.lit '[' :: segsGo 0 cs
        else
          Seg.tok (cs.takeWhile nb) :: segsGo ((cs.takeWhile nb).length + 1) cs
      | _ => Seg.lit '[' :: segsGo 0 cs
    else
      Seg.lit c :: segsGo 0 cs

/-- segs s is the full regex scan of `s` into literals and tokens. -/
def segs (s : Str) : List Seg := segsGo 0 s

/-- findMatches s models `re.findall(r'\[([^\[\]]+)\]', s)`: the captured
names of the leftmost non-overlapping bracket tokens of `s`, in order of
occurrence — exactly the token segments of the scan. -/
def findMatches (s : Str) : List Str :=
  (segs s).filterMap fun sg => match sg with | Seg.tok n => some n | Seg.lit _ => none

/-- DocRun is one python-docx run: its text and its `bold` attribute. -/
structure DocRun where
  text : Str
  bold : Option Bool
deriving DecidableEq, Repr

/-- Paragraph is a python-docx paragraph: a list of runs. -/
structure Paragraph where
  runs : List DocRun
deriving DecidableEq, Repr

/-- Paragraph.text models python-docx `paragraph.text`: the concatenation
of the texts of its runs. -/
def Paragraph.text (p : Paragraph) : Str := joinL (p.runs.map DocRun.text)

/-- Paragraph.setText models the python-docx `paragraph.text = s` setter:
the existing runs are discarded and replaced by a single run holding `s`,
with no explicit bold value. -/
def Paragraph.setText (_p : Paragraph) (s : Str) : Paragraph :=
  ⟨[⟨s, none⟩]⟩

/-- Cell is a python-docx table cell: a list of paragraphs. -/
structure Cell where
  paragraphs : List Paragraph
deriving DecidableEq, Repr

/-- TableRow is a python-docx table row: a list of cells. -/
structure TableRow where
  cells : List Cell
deriving DecidableEq, Repr

/-- Table is a python-docx table: a list of rows. -/
structure Table where
  rows : List TableRow
deriving DecidableEq, Repr

/-- Document is a python-docx document body: its body paragraphs and its
tables. -/
structure Document where
  paragraphs : List Paragraph
  tables : List Table
deriving DecidableEq, Repr

/-- allParagraphs doc lists every paragraph of the document: the body
paragraphs and the paragraphs of every table cell. -/
def allParagraphs (doc : Document) : List Paragraph :=
  doc.paragraphs ++
    (doc.tables.map fun t =>
      (t.rows.map fun r => (r.cells.map Cell.paragraphs).flatten).flatten).flatten

/-- strLe a b models Python string `a <= b`: lexicographic comparison by
code point. -/
def strLe : Str → Str → Bool
  | [], _ => true
  | _ :: _, [] => false
  | a :: as, b :: bs => if a = b then strLe as bs else decide (a < b)

/-- strLeP is `strLe` as a relation. -/
def strLeP (a b : Str) : Prop := strLe a b = true

instance : DecidableRel strLeP := fun a b =>
  inferInstanceAs (Decidable (strLe a b = true))

/-- sortStrings l models Python `sorted(l)` on strings. -/
def sortStrings (l : List Str) : List Str := List.insertionSort strLeP l

/-- extract_placeholders (services.py, lines 46–54) models

```python
def extract_placeholders(template_path):
    doc = docx.Document(template_path)
    placeholders = set()
    pattern = re.compile(r'\[([^\[\]]+)\]')
    for para in doc.paragraphs:
        matches = pattern.findall(para.text)
        placeholders.update(matches)
    return sorted(list(placeholders))
```

`doc.paragraphs` yields only the body paragraphs, so table-cell text is
never scanned.  The set built up by `update` is modelled by `dedup`, and
`sorted` by `sortStrings`. -/

def extract_placeholders (doc : Document) : List Str :=
  sortStrings ((doc.paragraphs.map fun p => findMatches p.text).flatten.dedup)

/-- JValue is a JSON value. -/
inductive JValue where
  | str (s : Str)
  | num (n : Int)
  | bool (b : Bool)
  | null
  | arr (elems : List JValue)
  | obj (fields : List (Str × JValue))

/-- isStr v models `isinstance(v, str)`. -/
def isStr : JValue → Bool
  | JValue.str _ => true
  | _ => false

/-- strOfJ extracts the text of a string value (used only under an
`isStr` guard, matching the source's `all(isinstance(x, str) ...)`
guard before `", ".join(v)`). -/
def strOfJ : JValue → Str
  | JValue.str s => s
  | _ => []

/-- jEscape is the escaping `json.dumps` applies inside string literals
(quote, backslash and the common control characters; other characters are
emitted unchanged under `ensure_ascii=False`). -/
def jEscape : Str → Str
  | [] => []
  | c :: t =>
    (if c = '"' then toL "\\\"" else if c = '\\' then toL "\\\\"
     else if c = '\n' then toL "\\n" else if c = '\t' then toL "\\t"
     else if c = '\x0d' then toL "\\r" else [c]) ++ jEscape t

mutual

/-- dumps models Python `json.dumps(v, ensure_ascii=False)` with the
default separators `", "` and `": "`. -/
def dumps : JValue → Str
  | JValue.str s => '"' :: jEscape s ++ ['"']
  | JValue.num n => toL (toString n)
  | JValue.bool true => toL "true"
  | JValue.bool false => toL "false"
  | JValue.null => toL "null"
  | JValue.arr xs => '[' :: joinSep (toL ", ") (dumpsList xs) ++ [']']
  | JValue.obj fs => '{' :: joinSep (toL ", ") (dumpsFields fs) ++ ['}']

/-- dumpsList serialises the elements of a JSON array. -/
def dumpsList : List JValue → List Str
  | [] => []
  | x :: t => dumps x :: dumpsList t

/-- dumpsFields serialises the entries of a JSON object. -/
def dumpsFields : List (Str × JValue) → List Str
  | [] => []
  | kv :: t => ('"' :: jEscape kv.1 ++ ['"'] ++ toL ": " ++ dumps kv.2) :: dumpsFields t

end

mutual

/-- pyRepr models Python `repr` on JSON-shaped values (strings are
single-quoted; escaping inside `repr` is not modelled — the repository
never relies on it). -/
def pyRepr : JValue → Str
  | JValue.str s => '\x27' :: s ++ ['\x27']
  | JValue.num n => toL (toString n)
  | JValue.bool true => toL "True"
  | JValue.bool false => toL "False"
  | JValue.null => toL "None"
  | JValue.arr xs => '[' :: joinSep (toL ", ") (pyReprList xs) ++ [']']
  | JValue.obj fs => '{' :: joinSep (toL ", ") (pyReprFields fs) ++ ['}']

/-- pyReprList renders the elements of a Python list for `repr`. -/
def pyReprList : List JValue → List Str
  | [] => []
  | x :: t => pyRepr x :: pyReprList t

/-- pyReprFields renders the entries of a Python dict for `repr`. -/
def pyReprFields : List (Str × JValue) → List Str
  | [] => []
  | kv :: t => ('\x27' :: kv.1 ++ ['\x27'] ++ toL ": " ++ pyRepr kv.2) :: pyReprFields t

end

/-- pyStr models Python `str(v)`: the identity on strings, `repr`-style
rendering on everything else. -/
def pyStr : JValue → Str
  | JValue.str s => s
  | v => pyRepr v

/-- dictGet d k models Python `d.get(k)` on a dict built from the
association list `d` in insertion order: for duplicate keys the last
binding wins. -/
def dictGet {α : Type _} (d : List (Str × α)) (k : Str) : Option α :=
  (d.reverse.find? fun kv => kv.1 == k).map Prod.snd

/-- dictSet d k v models Python `d[k] = v`: overwrite in place when the
key is present, append otherwise. -/
def dictSet {α : Type _} (d : List (Str × α)) (k : Str) (v : α) : List (Str × α) :=
  if d.any fun kv => kv.1 == k then
    d.map fun kv => if kv.1 == k then (kv.1, v) else kv
  else d ++ [(k, v)]

/-- FieldMeta models one value `meta` of the `replacements` dict: a JSON
object with the AI's `"original"` and `"new"` entries.  `original = none`
models both a missing `"original"` key and a JSON `null` (`json.load`
turns `null` into Python `None`; `meta.get("original")` yields `None` in
both cases, and `if not original: continue` skips `None` and `""` alike). -/
structure FieldMeta where
  original : Option Str
  new : Option Str
deriving DecidableEq, Repr

/-- cleanData models `clean_data = {k.strip(): str(v) for k, v in
filled_data.items()}` (services.py 175). -/
def cleanData (filled_data : List (Str × JValue)) : List (Str × Str) :=
  filled_data.map fun kv => (pyStrip kv.1, pyStr kv.2)

/-- replaceInPara models the per-paragraph step of the smart-replacement
loops (services.py 187–189 and 193–196):
`if original in para.text: para.text = para.text.replace(original, new_val)`
— assigning `para.text` rebuilds the paragraph's runs. -/
def replaceInPara (original new_val : Str) (p : Paragraph) : Paragraph :=
  if containsSub original p.text then p.setText (replaceAll original new_val p.text)
  else p

/-- smartReplaceStep models one iteration of
`for field, meta in replacements.items()` (services.py 179–196): skip
when `original` is missing, null or empty; otherwise take
`new_val = clean_data.get(field, meta.get("new", ""))` and replace in
every body paragraph and in every paragraph of every table cell. -/
def smartReplaceStep (clean_data : List (Str × Str)) (doc : Document)
    (spec : Str × FieldMeta) : Document :=
  match spec.2.original with
  | none => doc
  | some original =>
    if original = [] then doc
    else
      let new_val := (dictGet clean_data spec.1).getD (spec.2.new.getD [])
      { paragraphs := doc.paragraphs.map (replaceInPara original new_val),
        tables := doc.tables.map fun t =>
          { rows := t.rows.map fun r =>
            { cells := r.cells.map fun c =>
              { paragraphs := c.paragraphs.map (replaceInPara original new_val) } } } }

/-- smartReplacePass models the whole `if replacements:` block
(services.py 177–196).  (An empty dict is falsy and skips the block,
which coincides with folding over the empty item list.) -/
def smartReplacePass (clean_data : List (Str × Str))
    (replacements : List (Str × FieldMeta)) (doc : Document) : Document :=
  replacements.foldl (smartReplaceStep clean_data) doc

/-- bracketStep models one iteration of `for m in matches`
(services.py 208–214): `m_clean = m.strip()`; when `m_clean` is a key of
`clean_data` and the token `[m]` still occurs in the working text, every
occurrence is replaced and `changed` is set. -/
def bracketStep (clean_data : List (Str × Str)) (acc : Str × Bool) (m : Str) :
    Str × Bool :=
  match dictGet clean_data (pyStrip m) with
  | none => acc
  | some v =>
    if containsSub (tokStr m) acc.1 then (replaceAll (tokStr m) v acc.1, true)
    else acc

/-- rebuildRuns models the run rebuild of a changed paragraph
(services.py 219–233): all runs are removed; if `new_text.find(': ')`
succeeds, a bold run up to and including the separator and a non-bold run
with the rest are added, otherwise a single run with no bold setting. -/
def rebuildRuns (new_text : Str) : List DocRun :=
  match findSub (toL ": ") new_text with
  | some i => [⟨new_text.take (i + 2), some true⟩, ⟨new_text.drop (i + 2), some false⟩]
  | none => [⟨new_text, none⟩]

/-- bracketPassPara models the placeholder-replacement loop body for one
body paragraph (services.py 199–233). -/
def bracketPassPara (clean_data : List (Str × Str)) (p : Paragraph) : Paragraph :=
  if '[' ∈ p.text then
    let r := (findMatches p.text).foldl (bracketStep clean_data) (p.text, false)
    if r.2 then ⟨rebuildRuns r.1⟩ else p
  else p

/-- generate_filled_docx (services.py 171–236): the smart-replacement
pass when a `replacements` mapping is supplied (`none` models passing
`None`), then the bracket-token pass over the body paragraphs. -/
def generate_filled_docx (doc : Document) (filled_data : List (Str × JValue))
    (replacements : Option (List (Str × FieldMeta))) : Document :=
  let clean_data := cleanData filled_data
  let doc1 :=
    match replacements with
    | none => doc
    | some reps => smartReplacePass clean_data reps doc
  { doc1 with paragraphs := doc1.paragraphs.map (bracketPassPara clean_data) }

/-- lowerL models Python `str.lower()` (ASCII case folding; the source
only compares against ASCII literals). -/
def lowerL (s : Str) : Str := s.map Char.toLower

/-- jvFalsy models Python truth-value testing (`not new_val`). -/
def jvFalsy : JValue → Bool
  | JValue.str s => s.isEmpty
  | JValue.num n => n == 0
  | JValue.bool b => !b
  | JValue.null => true
  | JValue.arr xs => xs.isEmpty
  | JValue.obj fs => fs.isEmpty

/-- isNotMentioned v models `new_val.lower() == "not mentioned"` for
string values.  (A truthy non-string `new` would raise at `.lower()` in
the source; the collaborator contract makes `new` a string, and the model
treats non-strings as not matching.) -/
def isNotMentioned : JValue → Bool
  | JValue.str s => lowerL s == toL "not mentioned"
  | _ => false

/-- smartInferredData models main.py 97–104: `json.loads` of the
collaborator response inside `try`/`except` with `inferred_data = {}` on
failure.  The parameter is the parse outcome (`none` models a raised
parse error; a successful parse of this collaborator's response is a
JSON object). -/
def smartInferredData (parsed : Option (List (Str × JValue))) :
    List (Str × JValue) :=
  match parsed with
  | none => []
  | some kvs => kvs

/-- dateFallbackStep models main.py 109–113 on one item `(k, v)` of
`inferred_data`, with `today` standing for
`datetime.now().strftime("%Y-%m-%d")`:

```python
if isinstance(v, dict):
    new_val = v.get("new", "")
    if "date" in k.lower() and (not new_val or new_val.lower() == "not mentioned"):
        v["new"] = today_str
```
-/
def dateFallbackStep (today : Str) (kv : Str × JValue) : Str × JValue :=
  match kv.2 with
  | JValue.obj fields =>
    let new_val := (dictGet fields (toL "new")).getD (JValue.str [])
    if containsSub (toL "date") (lowerL kv.1) ∧
        (jvFalsy new_val ∨ isNotMentioned new_val) then
      (kv.1, JValue.obj (dictSet fields (toL "new") (JValue.str today)))
    else kv
  | _ => kv

/-- applyDateFallback models the date-fallback loop over `inferred_data`
(main.py 106–113). -/
def applyDateFallback (today : Str) (inferred : List (Str × JValue)) :
    List (Str × JValue) :=
  inferred.map (dateFallbackStep today)

/-- flattenInferred models main.py 121–127: project each inferred field
object to its `"new"` value (`details.get("new", "")`), `str(details)`
for a non-dict value. -/
def flattenInferred (inferred : List (Str × JValue)) : List (Str × JValue) :=
  inferred.map fun kv =>
    match kv.2 with
    | JValue.obj fields => (kv.1, (dictGet fields (toL "new")).getD (JValue.str []))
    | v => (kv.1, JValue.str (pyStr v))

/-- normalizeValue models the body of the flatten-and-stringify loop
(main.py 143–155) on one value:

```python
if isinstance(v, (dict, list)):
    if isinstance(v, list) and all(isinstance(x, str) for x in v):
        parsed_data[k] = ", ".join(v)
    else:
        parsed_data[k] = json.dumps(v, ensure_ascii=False)
elif v is None:
    parsed_data[k] = ""
else:
    parsed_data[k] = str(v)
```
-/
def normalizeValue : JValue → JValue
  | JValue.arr xs =>
    if xs.all isStr then JValue.str (joinSep (toL ", ") (xs.map strOfJ))
    else JValue.str (dumps (JValue.arr xs))
  | JValue.obj fs => JValue.str (dumps (JValue.obj fs))
  | JValue.null => JValue.str []
  | JValue.str s => JValue.str s
  | v => JValue.str (pyStr v)

/-- normalizeParsedData models the flatten-and-stringify loop over the
whole `parsed_data` dict (main.py 143–155); keys are not changed. -/
def normalizeParsedData (kvs : List (Str × JValue)) : List (Str × JValue) :=
  kvs.map fun kv => (kv.1, normalizeValue kv.2)

/-- ParsedData is the runtime type of `parsed_data` after main.py 136–140
in standard placeholder mode: still the raw collaborator response string
when `json.loads` raised (`except: pass`), or a parsed JSON value. -/
inductive ParsedData where
  | rawStr (s : Str)
  | json (v : JValue)

/-- finalizeParsedData models main.py 136–155 in standard placeholder
mode.  `parsed_data` starts as the collaborator's response string `resp`;
`json.loads(resp)` is tried (`parse` is its outcome, `none` when it
raises) and on failure the handler is `pass`, leaving the raw string in
place; the flatten-and-stringify loop then runs only under
`isinstance(parsed_data, dict)`. -/
def finalizeParsedData (resp : Str) (parse : Option JValue) : ParsedData :=
  match parse with
  | none => ParsedData.rawStr resp
  | some (JValue.obj kvs) => ParsedData.json (JValue.obj (normalizeParsedData kvs))
  | some v => ParsedData.json v

/-- replaceEverywhere formalises the spec sentence "wherever the
paragraph's text contains `original` as a substring, replace all
occurrences of that substring with the final value", via the Python
identity `s.replace(a, b) == b.join(s.split(a))`. -/
def replaceEverywhere (original final t : Str) : Str :=
  joinSep final (splitOnL original t)

/-- DocTexts is a document reduced to its texts: the body paragraph
texts, and for every table the texts of the paragraphs of its cells. -/
structure DocTexts where
  paragraphs : List Str
  tables : List (List (List (List Str)))
deriving DecidableEq, Repr

/-- Document.texts reduces a document to its texts. -/
def Document.texts (doc : Document) : DocTexts :=
  ⟨doc.paragraphs.map Paragraph.text,
   doc.tables.map fun t => t.rows.map fun r =>
     r.cells.map fun c => c.paragraphs.map Paragraph.text⟩

/-- literalSpecStep formalises the spec sentence "for each
`(name, original, new)` in order, compute the final value as
`fieldValues[name]` if present, else the spec's stored fallback `new`;
scan every paragraph in the document body and every paragraph in every
table cell; wherever the paragraph's text contains `original` as a
substring, replace all occurrences of that substring with the final
value" — one field spec applied to the texts of a document. -/
def literalSpecStep (fieldValues : List (Str × Str)) (dt : DocTexts)
    (spec : Str × Str × Str) : DocTexts :=
  let final := (dictGet fieldValues spec.1).getD spec.2.2
  ⟨dt.paragraphs.map (replaceEverywhere spec.2.1 final),
   dt.tables.map fun t => t.map fun r => r.map (List.map (replaceEverywhere spec.2.1 final))⟩

/-- literalSpecPass folds `literalSpecStep` over the field specs in
mapping order. -/
def literalSpecPass (fieldValues : List (Str × Str))
    (specsL : List (Str × Str × Str)) (dt : DocTexts) : DocTexts :=
  specsL.foldl (literalSpecStep fieldValues) dt

/-- substSpec formalises the spec sentence "for each paragraph whose raw
text contains at least one `[`, find all bracket-delimited names; for any
name with a trimmed form present in `fieldValues`, replace the exact
bracket token `[name]` with the mapped value": in the scan of the text,
every token whose trimmed name is mapped becomes its mapped value and
every other segment is kept. -/
def substSpec (fieldValues : List (Str × Str)) (t : Str) : Str :=
  joinL ((segs t).map fun sg =>
    match sg with
    | Seg.lit c => [c]
    | Seg.tok n =>
      match dictGet fieldValues (pyStrip n) with
      | some v => v
      | none => tokStr n)

/-- splitRunsSpec formalises the spec sentence "if the new text contains
a `': '` separator, the text is split at the first such separator into a
bold label run (including the separator) and a non-bold value run;
otherwise the whole text becomes one plain run." -/
def splitRunsSpec (t : Str) : List DocRun :=
  match splitOnL (toL ": ") t with
  | [_] => [⟨t, none⟩]
  | x :: xs => [⟨x ++ toL ": ", some true⟩, ⟨joinSep (toL ": ") xs, some false⟩]
  | [] => [⟨t, none⟩]

/-- keyed fieldValues m: the trimmed form of the matched name `m` is a
key of `fieldValues` (`m.strip() in clean_data`). -/
def keyed (fieldValues : List (Str × Str)) (m : Str) : Bool :=
  (dictGet fieldValues (pyStrip m)).isSome

/-- bracketFreeVals fieldValues: no mapped value contains a bracket
character.  (A value containing brackets can splice new tokens into the
working text of the bracket pass.) -/
def bracketFreeVals (fieldValues : List (Str × Str)) : Prop :=
  ∀ kv ∈ fieldValues, '[' ∉ kv.2 ∧ ']' ∉ kv.2

/-- wellBracketed t: every bracket character of `t` belongs to a
placeholder token — the scan of `t` has no literal `[` or `]` segment. -/
def wellBracketed (t : Str) : Bool :=
  (segs t).all fun sg =>
    match sg with
    | Seg.lit c => nb c
    | Seg.tok _ => true

/-- chunkOf fieldValues processed sg is the current text of the segment
`sg` of the original paragraph text once exactly the matches listed in
`processed` have been through the replacement loop. -/
def chunkOf (fieldValues : List (Str × Str)) (processed : List Str) : Seg → Str
  | Seg.lit c => [c]
  | Seg.tok n =>
    match dictGet fieldValues (pyStrip n) with
    | some v => if n ∈ processed then v else tokStr n
    | none => tokStr n

/-- substP fieldValues processed t is the working text of the bracket
pass on `t` once exactly the matches listed in `processed` have been
through the replacement loop. -/
def substP (fieldValues : List (Str × Str)) (processed : List Str) (t : Str) : Str :=
  joinL ((segs t).map (chunkOf fieldValues processed))

/-- blocksAt pat c: the strings `pat` and `c` differ at some position
that both of them have, so no extension of `c` to the right can have
`pat` as a leading segment. -/
def blocksAt (pat c : Str) : Prop :=
  ∃ i, i < pat.length ∧ i < c.length ∧ pat.get? i ≠ c.get? i

/-- aliceDoc is an example document whose body paragraph and table-cell
paragraph both contain the literal span "ALICE". -/
def aliceDoc : Document :=
  ⟨[⟨[⟨toL "Hi ALICE and ALICE", none⟩]⟩],
   [⟨[⟨[⟨[⟨[⟨toL "ALICE!", none⟩]⟩]⟩]⟩]⟩]⟩

/-- aliceReps is a single field spec replacing the literal "ALICE". -/
def aliceReps : List (Str × FieldMeta) :=
  [(toL "Name", ⟨some (toL "ALICE"), some (toL "xx")⟩)]

/-- plainDoc is an example document containing no bracket syntax and no
occurrence of any example field spec's original value. -/
def plainDoc : Document :=
  ⟨[⟨[⟨toL "Hello world", none⟩]⟩],
   [⟨[⟨[⟨[⟨[⟨toL "Cell text", none⟩]⟩]⟩]⟩]⟩]⟩

/-- exampleTemplateDoc is the specification's three-paragraph example
template. -/
def exampleTemplateDoc : Document :=
  ⟨[⟨[⟨toL "Patient: [Name]", none⟩]⟩, ⟨[⟨toL "DOB: [Name]", none⟩]⟩,
    ⟨[⟨toL "Visit: [Date]", none⟩]⟩], []⟩

/-- cellOnlyDoc is a document whose only bracket token sits inside a
table cell. -/
def cellOnlyDoc : Document :=
  ⟨[], [⟨[⟨[⟨[⟨[⟨toL "[Name]", none⟩]⟩]⟩]⟩]⟩]⟩

/-!
Verification of the template field model and text-substitution engine of
`ai-doc-engine` (backend/app/services.py and backend/app/main.py).

Text is modelled as `List Char` (Python `str`).  The Python string
operations used by the source — `in` (substring test), `str.replace`
(replace every non-overlapping occurrence, scanning left to right),
`str.strip`, `str.find`, `str.split` — are given executable definitions
below with exactly the CPython semantics.  Documents are modelled after
python-docx: a body that is a list of paragraphs plus a list of tables,
where `Document.paragraphs` contains only the body paragraphs (paragraphs
nested in table cells are reachable only through `Document.tables`), and a
paragraph's `text` is the concatenation of its runs' texts.

The scanners (`replace`, `split`, the bracket matcher of the regex
`\[([^\[\]]+)\]`) are written with an auxiliary skip counter so that they
are structurally recursive on the scanned string and hence evaluate by
kernel reduction; clean one-step unfolding lemmas are proved for each.
-/

example : pyStrip (toL "  a b\t") = toL "a b" := by decide

example : containsSub (toL "bc") (toL "abcd") = true := by decide

example : containsSub (toL "") (toL "") = true := by decide

example : replaceAll (toL "aa") (toL "b") (toL "aaa") = toL "ba" := by decide

example : replaceAll (toL "ab") (toL "a") (toL "abb") = toL "ab" := by decide

example : splitOnL (toL ", ") (toL "a, b, c") = [toL "a", toL "b", toL "c"] := by decide

example : findSub (toL ": ") (toL "a: b: c") = some 1 := by decide

example : findSub (toL "x") (toL "ab") = none := by decide

/-! Unfolding lemmas giving the scanners their natural left-to-right
one-step descriptions. -/

theorem replaceGo_skip (pat rep : Str) (k : Nat) (s : Str) :
    replaceGo pat rep k s = replaceGo pat rep 0 (s.drop k) := by
  induction k generalizing s with
  | zero => simp
  | succ k ih =>
    cases s with
    | nil => simp [replaceGo]
    | cons c cs => simpa [replaceGo] using ih cs

theorem replaceAll_nil (pat rep : Str) : replaceAll pat rep [] = [] := rfl

theorem replaceAll_cons (pat rep : Str) (c : Char) (cs : Str) :
    replaceAll pat rep (c :: cs) =
      if leadsWith pat (c :: cs) ∧ pat ≠ [] then
        rep ++ replaceAll pat rep ((c :: cs).drop pat.length)
      else
        c :: replaceAll pat rep cs := by
  show replaceGo pat rep 0 (c :: cs) = _
  rw [replaceGo]
  split
  · next h =>
    have hp : pat ≠ [] := h.2
    have h1 : 1 ≤ pat.length := by
      cases pat with
      | nil => simp_all
      | cons a l => simp
    rw [replaceGo_skip]
    have : (c :: cs).drop pat.length = cs.drop (pat.length - 1) := by
      cases pat with
      | nil => simp_all
      | cons a l => simp
    rw [this]
    rfl
  · rfl

theorem splitGo_skip (pat : Str) (k : Nat) (s : Str) :
    splitGo pat k s = splitGo pat 0 (s.drop k) := by
  induction k generalizing s with
  | zero => simp
  | succ k ih =>
    cases s with
    | nil => simp [splitGo]
    | cons c cs => simpa [splitGo] using ih cs

theorem splitOnL_nil (pat : Str) : splitOnL pat [] = [[]] := rfl

theorem splitOnL_cons (pat : Str) (c : Char) (cs : Str) :
    splitOnL pat (c :: cs) =
      if leadsWith pat (c :: cs) ∧ pat ≠ [] then
        [] :: splitOnL pat ((c :: cs).drop pat.length)
      else
        match splitOnL pat cs with
        | [] => [[c]]
        | h :: t => (c :: h) :: t := by
  show splitGo pat 0 (c :: cs) = _
  rw [splitGo]
  split
  · next h =>
    have hp : pat ≠ [] := h.2
    rw [splitGo_skip]
    have : (c :: cs).drop pat.length = cs.drop (pat.length - 1) := by
      cases pat with
      | nil => simp_all
      | cons a l => simp
    rw [this]
    rfl
  · rfl

/-! The bracket scanner.  The source finds placeholders with the regular
expression `\[([^\[\]]+)\]` (re.findall): a match is an opening bracket, a
non-empty maximal run of non-bracket characters, then a closing bracket;
findall returns the captured names of the leftmost non-overlapping
matches, scanning left to right, resuming after each match (and one
character further on failure).  `segs` is that scan made total: it also
keeps every unmatched character as a literal segment, so that the scanned
string can be reconstructed (`render_segs`). -/

example : findMatches (toL "Patient: [Name], DOB: [DOB]") = [toL "Name", toL "DOB"] := by decide

example : findMatches (toL "a [x[y] z]") = [toL "y"] := by decide

example : findMatches (toL "[]") = [] := by decide

example : segs (toL "a[b]") =
    [Seg.lit 'a', Seg.tok ['b']] := by decide

theorem segsGo_skip (k : Nat) (s : Str) :
    segsGo k s = segsGo 0 (s.drop k) := by
  induction k generalizing s with
  | zero => simp
  | succ k ih =>
    cases s with
    | nil => simp [segsGo]
    | cons c cs => simpa [segsGo] using ih cs

theorem drop_length_add_one {α : Type _} (l r : List α) (a : α) :
    (l ++ a :: r).drop (l.length + 1) = r := by
  induction l with
  | nil => simp
  | cons b t ih => simp [ih]

theorem segs_cons_other (c : Char) (cs : Str) (hc : c ≠ '[') :
    segs (c :: cs) = Seg.lit c :: segs cs := by
  show segsGo 0 (c :: cs) = _
  rw [segsGo, if_neg hc]
  rfl

theorem segs_cons_tok (cs name rest2 : Str)
    (htake : cs.takeWhile nb = name)
    (hdrop : cs.dropWhile nb = ']' :: rest2)
    (hne : name ≠ []) :
    segs ('[' :: cs) = Seg.tok name :: segs rest2 := by
  have hni : name.isEmpty = false := by
    cases name with
    | nil => exact absurd rfl hne
    | cons a l => rfl
  have hcs : cs = name ++ ']' :: rest2 := by
    conv_lhs => rw [← List.takeWhile_append_dropWhile (p := nb) (l := cs)]
    rw [htake, hdrop]
  show segsGo 0 ('[' :: cs) = _
  rw [segsGo, if_pos rfl]
  split
  · next x heq =>
    rw [heq] at hdrop
    injection hdrop with _ hx
    subst hx
    rw [htake, hni]
    simp only [Bool.false_eq_true, if_false]
    rw [segsGo_skip, hcs, drop_length_add_one]
    rfl
  · next heq =>
    rw [hdrop] at heq
    simp at heq

theorem segs_cons_brack_fail (cs : Str)
    (h : cs.takeWhile nb = [] ∨ ∀ rest2, cs.dropWhile nb ≠ ']' :: rest2) :
    segs ('[' :: cs) = Seg.lit '[' :: segs cs := by
  show segsGo 0 ('[' :: cs) = _
  rw [segsGo, if_pos rfl]
  split
  · next x heq =>
    rcases h with h | h
    · rw [h]
      rfl
    · exact absurd heq (h x)
  · rfl

theorem render_nil : render [] = [] := rfl

theorem render_cons (x : Seg) (l : List Seg) :
    render (x :: l) = segStr x ++ render l := by
  simp [render, joinL]

theorem takeWhile_append_dropWhile_nb (cs : Str) :
    cs.takeWhile nb ++ cs.dropWhile nb = cs :=
  List.takeWhile_append_dropWhile nb cs

theorem render_segs (s : Str) : render (segs s) = s := by
  suffices h : ∀ n (s : Str), s.length ≤ n → render (segs s) = s from
    h s.length s le_rfl
  intro n
  induction n with
  | zero =>
    intro s hs
    have : s = [] := List.eq_nil_of_length_eq_zero (Nat.le_zero.mp hs)
    subst this
    rfl
  | succ n ih =>
    intro s hs
    match s with
    | [] => rfl
    | c :: cs =>
      have hcs : cs.length ≤ n := by
        simp [List.length_cons] at hs
        omega
      by_cases hc : c = '['
      · subst hc
        cases hd : cs.dropWhile nb with
        | nil =>
          rw [segs_cons_brack_fail cs (Or.inr (by simp [hd]))]
          rw [render_cons, ih cs hcs]
          rfl
        | cons a tl =>
          by_cases ha : a = ']'
          · subst ha
            cases ht : cs.takeWhile nb with
            | nil =>
              rw [segs_cons_brack_fail cs (Or.inl ht)]
              rw [render_cons, ih cs hcs]
              rfl
            | cons b nm =>
              rw [segs_cons_tok cs (b :: nm) tl ht hd (by simp)]
              have hsplit : cs = (b :: nm) ++ ']' :: tl := by
                conv_lhs => rw [← takeWhile_append_dropWhile_nb cs]
                rw [ht, hd]
              have htl : tl.length ≤ n := by
                have : cs.length = nm.length + 2 + tl.length := by
                  rw [hsplit]; simp [List.length_append]; omega
                omega
              rw [render_cons, ih tl htl]
              rw [hsplit]
              simp [segStr, tokStr]
          · rw [segs_cons_brack_fail cs (Or.inr (by simp [hd, ha]))]
            rw [render_cons, ih cs hcs]
            rfl
      · rw [segs_cons_other c cs hc]
        rw [render_cons, ih cs hcs]
        rfl

theorem segs_tok_shape (s : Str) (nm : Str) (h : Seg.tok nm ∈ segs s) :
    nm ≠ [] ∧ ∀ c ∈ nm, nb c := by
  suffices hgen : ∀ n (s : Str), s.length ≤ n → Seg.tok nm ∈ segs s →
      nm ≠ [] ∧ ∀ c ∈ nm, nb c from hgen s.length s le_rfl h
  clear h
  intro n
  induction n with
  | zero =>
    intro s hs h
    have : s = [] := List.eq_nil_of_length_eq_zero (Nat.le_zero.mp hs)
    subst this
    simp [segs, segsGo] at h
  | succ n ih =>
    intro s hs h
    match s with
    | [] => simp [segs, segsGo] at h
    | c :: cs =>
      have hcs : cs.length ≤ n := by
        simp [List.length_cons] at hs
        omega
      by_cases hc : c = '['
      · subst hc
        cases hd : cs.dropWhile nb with
        | nil =>
          rw [segs_cons_brack_fail cs (Or.inr (by simp [hd]))] at h
          rcases List.mem_cons.mp h with h | h
          · cases h
          · exact ih cs hcs h
        | cons a tl =>
          by_cases ha : a = ']'
          · subst ha
            cases ht : cs.takeWhile nb with
            | nil =>
              rw [segs_cons_brack_fail cs (Or.inl ht)] at h
              rcases List.mem_cons.mp h with h | h
              · cases h
              · exact ih cs hcs h
            | cons b nmt =>
              rw [segs_cons_tok cs (b :: nmt) tl ht hd (by simp)] at h
              have hsplit : cs = (b :: nmt) ++ ']' :: tl := by
                conv_lhs => rw [← takeWhile_append_dropWhile_nb cs]
                rw [ht, hd]
              have htl : tl.length ≤ n := by
                have : cs.length = nmt.length + 2 + tl.length := by
                  rw [hsplit]; simp [List.length_append]; omega
                omega
              rcases List.mem_cons.mp h with h | h
              · injection h with h
                subst h
                refine ⟨by simp, ?_⟩
                intro x hx
                exact List.mem_takeWhile_imp (ht ▸ hx)
              · exact ih tl htl h
          · rw [segs_cons_brack_fail cs (Or.inr (by simp [hd, ha]))] at h
            rcases List.mem_cons.mp h with h | h
            · cases h
            · exact ih cs hcs h
      · rw [segs_cons_other c cs hc] at h
        rcases List.mem_cons.mp h with h | h
        · cases h
        · exact ih cs hcs h

/-! Document model, following python-docx.  A run is a piece of styled
text (`run.bold` is `True`, `False` or `None`/inherited); a paragraph's
`text` is the concatenation of its runs' texts; `Document.paragraphs`
holds only the paragraphs of the document body — paragraphs nested in
table cells are reachable only through `Document.tables`. -/

/-! JSON values.  Values arriving from the HTTP boundary and from the
language-model collaborator are JSON; `JValue` models them (JSON numbers
are modelled as integers; the repository's code never manipulates numeric
values).  `DecidableEq` is not derivable for the nested inductive and is
not needed: all concrete equalities are settled by `rfl` and constructor
injectivity. -/

example : dictGet [(toL "a", 1), (toL "a", 2)] (toL "a") = some 2 := by decide

example : dictGet [(toL "a", 1)] (toL "b") = none := by decide

/-! generate_filled_docx (services.py, lines 171–236). -/

/-! Slices of the `/transcribe` endpoint (main.py 91–155). -/

/-! Spec-side definitions.  Each of the following formalises a sentence
of the specification in its own words, to be compared with the
corresponding definition transcribed from the source. -/

/-! Core lemmas about the string scanners. -/

theorem leadsWith_append_self (p r : Str) : leadsWith p (p ++ r) = true := by
  induction p with
  | nil => rfl
  | cons a t ih => simp [leadsWith, ih]

theorem leadsWith_iff (p s : Str) : leadsWith p s = true ↔ ∃ r, s = p ++ r := by
  induction p generalizing s with
  | nil => exact ⟨fun _ => ⟨s, rfl⟩, fun _ => rfl⟩
  | cons a t ih =>
    cases s with
    | nil =>
      constructor
      · intro h; simp [leadsWith] at h
      · rintro ⟨r, hr⟩; simp at hr
    | cons c cs =>
      constructor
      · intro h
        simp only [leadsWith, Bool.and_eq_true, decide_eq_true_eq] at h
        obtain ⟨r, hr⟩ := (ih cs).mp h.2
        exact ⟨r, by simp [h.1, hr]⟩
      · rintro ⟨r, hr⟩
        injection hr with h1 h2
        simp [leadsWith, h1, (ih cs).mpr ⟨r, h2⟩]

theorem replaceAll_of_not_contains (pat rep s : Str)
    (h : containsSub pat s = false) : replaceAll pat rep s = s := by
  induction s with
  | nil => rfl
  | cons c cs ih =>
    simp only [containsSub, Bool.or_eq_false_iff] at h
    rw [replaceAll_cons, if_neg (by simp [h.1]), ih h.2]

theorem splitOnL_ne_nil (pat s : Str) : splitOnL pat s ≠ [] := by
  cases s with
  | nil => simp [splitOnL_nil]
  | cons c cs =>
    rw [splitOnL_cons]
    split
    · simp
    · split <;> simp

theorem replaceAll_eq_joinSep (pat rep : Str) (hp : pat ≠ []) (s : Str) :
    replaceAll pat rep s = joinSep rep (splitOnL pat s) := by
  suffices h : ∀ n (s : Str), s.length ≤ n →
      replaceAll pat rep s = joinSep rep (splitOnL pat s) from h s.length s le_rfl
  intro n
  induction n with
  | zero =>
    intro s hs
    have : s = [] := List.eq_nil_of_length_eq_zero (Nat.le_zero.mp hs)
    subst this
    rfl
  | succ n ih =>
    intro s hs
    cases s with
    | nil => rfl
    | cons c cs =>
      rw [replaceAll_cons, splitOnL_cons]
      by_cases hlw : leadsWith pat (c :: cs) = true
      · rw [if_pos ⟨hlw, hp⟩, if_pos ⟨hlw, hp⟩]
        have h1 : 1 ≤ pat.length := by
          cases pat with
          | nil => exact absurd rfl hp
          | cons a l => simp
        have hlen : ((c :: cs).drop pat.length).length ≤ n := by
          simp only [List.length_drop, List.length_cons] at *
          omega
        rw [ih _ hlen]
        obtain ⟨h, t, hht⟩ : ∃ h t, splitOnL pat ((c :: cs).drop pat.length) = h :: t := by
          cases hsp : splitOnL pat ((c :: cs).drop pat.length) with
          | nil => exact absurd hsp (splitOnL_ne_nil pat _)
          | cons h t => exact ⟨h, t, rfl⟩
        rw [hht]
        rfl
      · rw [if_neg (by simp [hlw]), if_neg (by simp [hlw])]
        have hlen : cs.length ≤ n := by
          simp only [List.length_cons] at hs
          omega
        rw [ih cs hlen]
        obtain ⟨h, t, hht⟩ : ∃ h t, splitOnL pat cs = h :: t := by
          cases hsp : splitOnL pat cs with
          | nil => exact absurd hsp (splitOnL_ne_nil pat _)
          | cons h t => exact ⟨h, t, rfl⟩
        rw [hht]
        cases t with
        | nil => rfl
        | cons y u => rfl

theorem replaceAll_self_id (pat s : Str) : replaceAll pat pat s = s := by
  suffices h : ∀ n (s : Str), s.length ≤ n → replaceAll pat pat s = s from
    h s.length s le_rfl
  intro n
  induction n with
  | zero =>
    intro s hs
    have : s = [] := List.eq_nil_of_length_eq_zero (Nat.le_zero.mp hs)
    subst this
    rfl
  | succ n ih =>
    intro s hs
    cases s with
    | nil => rfl
    | cons c cs =>
      rw [replaceAll_cons]
      split
      · next hcond =>
        obtain ⟨r, hr⟩ := (leadsWith_iff pat (c :: cs)).mp hcond.1
        rw [hr, List.drop_left]
        have h1 : 1 ≤ pat.length := by
          cases pat with
          | nil => exact absurd rfl hcond.2
          | cons a l => simp
        have hlen : r.length ≤ n := by
          have hl := congrArg List.length hr
          simp only [List.length_cons, List.length_append] at hl
          simp only [List.length_cons] at hs
          omega
        rw [ih r hlen]
      · have hlen : cs.length ≤ n := by
          simp only [List.length_cons] at hs
          omega
        rw [ih cs hlen]

theorem joinSep_splitOnL (pat : Str) (hp : pat ≠ []) (s : Str) :
    joinSep pat (splitOnL pat s) = s := by
  rw [← replaceAll_eq_joinSep pat pat hp s, replaceAll_self_id]

theorem splitOnL_of_not_contains (pat s : Str)
    (h : containsSub pat s = false) : splitOnL pat s = [s] := by
  induction s with
  | nil => rfl
  | cons c cs ih =>
    simp only [containsSub, Bool.or_eq_false_iff] at h
    rw [splitOnL_cons, if_neg (by simp [h.1]), ih h.2]

theorem containsSub_eq_isSome_findSub (pat s : Str) :
    containsSub pat s = (findSub pat s).isSome := by
  induction s with
  | nil =>
    show pat.isEmpty = (if pat.isEmpty then some 0 else none).isSome
    cases h : pat.isEmpty <;> simp [h]
  | cons c cs ih =>
    show (leadsWith pat (c :: cs) || containsSub pat cs) = _
    show _ = (if leadsWith pat (c :: cs) then some 0 else (findSub pat cs).map (· + 1)).isSome
    cases hlw : leadsWith pat (c :: cs) <;> simp [hlw, ih]

theorem findSub_decomp (pat s : Str) (i : Nat) (h : findSub pat s = some i) :
    s = s.take i ++ pat ++ s.drop (i + pat.length) := by
  induction s generalizing i with
  | nil =>
    show [] = _
    by_cases hp : pat.isEmpty = true
    · have : pat = [] := by simpa [List.isEmpty_iff] using hp
      subst this
      simp [findSub, hp] at h
      subst h
      rfl
    · simp [findSub, hp] at h
  | cons c cs ih =>
    by_cases hlw : leadsWith pat (c :: cs) = true
    · have h0 : i = 0 := by
        simp [findSub, hlw] at h
        omega
      subst h0
      obtain ⟨r, hr⟩ := (leadsWith_iff pat (c :: cs)).mp hlw
      rw [hr]
      simp [List.drop_left]
    · simp only [findSub, if_neg hlw, Option.map_eq_some'] at h
      obtain ⟨j, hj, hij⟩ := h
      subst hij
      have harith : j + 1 + pat.length = (j + pat.length) + 1 := by omega
      rw [harith, List.drop_succ_cons, List.take_succ_cons]
      have := ih j hj
      conv_lhs => rw [this]
      simp

theorem splitOnL_of_findSub_some (pat s : Str) (i : Nat) (hp : pat ≠ [])
    (h : findSub pat s = some i) :
    splitOnL pat s = s.take i :: splitOnL pat (s.drop (i + pat.length)) := by
  induction s generalizing i with
  | nil =>
    have hpe : pat.isEmpty = false := by
      cases pat with
      | nil => exact absurd rfl hp
      | cons a l => rfl
    simp [findSub, hpe] at h
  | cons c cs ih =>
    by_cases hlw : leadsWith pat (c :: cs) = true
    · have h0 : i = 0 := by
        simp [findSub, hlw] at h
        omega
      subst h0
      rw [splitOnL_cons, if_pos ⟨hlw, hp⟩]
      simp
    · simp only [findSub, if_neg hlw, Option.map_eq_some'] at h
      obtain ⟨j, hj, hij⟩ := h
      subst hij
      rw [splitOnL_cons, if_neg (by simp [hlw])]
      rw [ih j hj]
      have harith : j + 1 + pat.length = (j + pat.length) + 1 := by omega
      rw [harith, List.drop_succ_cons, List.take_succ_cons]

/-! The literal-span (smart replacement) pass. -/

theorem listMap_eq_self {α : Type _} (l : List α) (f : α → α)
    (h : ∀ x ∈ l, f x = x) : l.map f = l := by
  induction l with
  | nil => rfl
  | cons x t ih =>
    rw [List.map_cons, h x (List.mem_cons_self x t),
      ih fun y hy => h y (List.mem_cons_of_mem x hy)]

theorem foldl_fixed {α β : Type _} (f : α → β → α) (d : α) (l : List β)
    (h : ∀ x ∈ l, f d x = d) : l.foldl f d = d := by
  induction l with
  | nil => rfl
  | cons x t ih =>
    rw [List.foldl_cons, h x (List.mem_cons_self x t)]
    exact ih fun y hy => h y (List.mem_cons_of_mem x hy)

theorem Paragraph.text_setText (p : Paragraph) (s : Str) :
    (p.setText s).text = s := by
  simp [Paragraph.text, Paragraph.setText, joinL]

theorem replaceInPara_of_not_contains (o v : Str) (p : Paragraph)
    (h : containsSub o p.text = false) : replaceInPara o v p = p := by
  rw [replaceInPara, if_neg (by simp [h])]

theorem replaceInPara_text (o v : Str) (ho : o ≠ []) (p : Paragraph) :
    (replaceInPara o v p).text = replaceEverywhere o v p.text := by
  rw [replaceInPara]
  by_cases h : containsSub o p.text = true
  · rw [if_pos h, Paragraph.text_setText, replaceEverywhere,
      replaceAll_eq_joinSep o v ho]
  · have hf : containsSub o p.text = false := by
      cases hc : containsSub o p.text
      · rfl
      · exact absurd hc h
    rw [if_neg (by simp [hf]), replaceEverywhere, splitOnL_of_not_contains o _ hf]
    rfl

theorem mem_allParagraphs_body (d : Document) (p : Paragraph)
    (h : p ∈ d.paragraphs) : p ∈ allParagraphs d :=
  List.mem_append_left _ h

theorem mem_allParagraphs_cell (d : Document) (t : Table) (r : TableRow)
    (c : Cell) (p : Paragraph) (ht : t ∈ d.tables) (hr : r ∈ t.rows)
    (hc : c ∈ r.cells) (hp : p ∈ c.paragraphs) : p ∈ allParagraphs d := by
  refine List.mem_append_right _ ?_
  rw [List.mem_flatten]
  refine ⟨_, List.mem_map_of_mem _ ht, ?_⟩
  rw [List.mem_flatten]
  refine ⟨_, List.mem_map_of_mem _ hr, ?_⟩
  rw [List.mem_flatten]
  exact ⟨_, List.mem_map_of_mem _ hc, hp⟩

theorem smartReplaceStep_eq_self (clean : List (Str × Str)) (d : Document)
    (fm : Str × FieldMeta)
    (h : ∀ o, fm.2.original = some o →
      ∀ p ∈ allParagraphs d, containsSub o p.text = false) :
    smartReplaceStep clean d fm = d := by
  rw [smartReplaceStep]
  split
  · rfl
  · next o ho =>
    by_cases hoe : o = []
    · rw [if_pos hoe]
    · rw [if_neg hoe]
      dsimp only
      have hid : ∀ p ∈ allParagraphs d,
          replaceInPara o ((dictGet clean fm.1).getD (fm.2.new.getD [])) p = p :=
        fun p hp => replaceInPara_of_not_contains _ _ _ (h o ho p hp)
      cases d with
      | mk ps ts =>
        congr 1
        · exact listMap_eq_self _ _ fun p hp =>
            hid p (mem_allParagraphs_body ⟨ps, ts⟩ p hp)
        · refine listMap_eq_self _ _ fun t ht => ?_
          cases t with
          | mk rows =>
            congr 1
            refine listMap_eq_self _ _ fun r hr => ?_
            cases r with
            | mk cells =>
              congr 1
              refine listMap_eq_self _ _ fun c hc => ?_
              cases c with
              | mk cps =>
                congr 1
                exact listMap_eq_self _ _ fun p hp =>
                  hid p (mem_allParagraphs_cell ⟨ps, ts⟩ ⟨rows⟩ ⟨cells⟩ ⟨cps⟩ p ht hr hc hp)

theorem smartReplaceStep_texts (clean : List (Str × Str)) (d : Document)
    (f : Str) (m : FieldMeta) (o : Str) (ho : m.original = some o)
    (hoe : o ≠ []) :
    (smartReplaceStep clean d (f, m)).texts =
      literalSpecStep clean d.texts (f, o, m.new.getD []) := by
  rw [smartReplaceStep]
  simp only [ho, if_neg hoe]
  rw [literalSpecStep, Document.texts, Document.texts]
  congr 1
  · rw [List.map_map, List.map_map]
    exact List.map_congr_left fun p _ => replaceInPara_text o _ hoe p
  · rw [List.map_map, List.map_map]
    refine List.map_congr_left fun t _ => ?_
    simp only [Function.comp_apply]
    rw [List.map_map, List.map_map]
    refine List.map_congr_left fun r _ => ?_
    simp only [Function.comp_apply]
    rw [List.map_map, List.map_map]
    refine List.map_congr_left fun c _ => ?_
    simp only [Function.comp_apply]
    rw [List.map_map, List.map_map]
    exact List.map_congr_left fun p _ => replaceInPara_text o _ hoe p

theorem smartReplaceStep_skip (clean : List (Str × Str)) (d : Document)
    (f : Str) (m : FieldMeta) (h : m.original = none ∨ m.original = some []) :
    smartReplaceStep clean d (f, m) = d := by
  rw [smartReplaceStep]
  split
  · rfl
  · next o ho =>
    rcases h with h | h
    · rw [h] at ho
      simp at ho
    · rw [h] at ho
      injection ho with ho2
      rw [if_pos ho2.symm]

theorem smartReplacePass_texts (clean : List (Str × Str))
    (reps : List (Str × FieldMeta)) (d : Document)
    (h : ∀ fm ∈ reps, ∃ o, fm.2.original = some o ∧ o ≠ []) :
    (smartReplacePass clean reps d).texts =
      literalSpecPass clean
        (reps.map fun fm => (fm.1, fm.2.original.getD [], fm.2.new.getD []))
        d.texts := by
  induction reps generalizing d with
  | nil => rfl
  | cons fm rest ih =>
    obtain ⟨o, ho, hoe⟩ := h fm (List.mem_cons_self fm rest)
    have hstep : (smartReplaceStep clean d fm).texts =
        literalSpecStep clean d.texts (fm.1, fm.2.original.getD [], fm.2.new.getD []) := by
      rw [ho]
      exact smartReplaceStep_texts clean d fm.1 fm.2 o ho hoe
    calc (smartReplacePass clean (fm :: rest) d).texts
        = (smartReplacePass clean rest (smartReplaceStep clean d fm)).texts := rfl
      _ = literalSpecPass clean
            (rest.map fun fm => (fm.1, fm.2.original.getD [], fm.2.new.getD []))
            (smartReplaceStep clean d fm).texts :=
          ih _ fun fm' hm' => h fm' (List.mem_cons_of_mem fm hm')
      _ = _ := by
          rw [hstep]
          rfl

theorem smartReplacePass_idem_aux (clean : List (Str × Str))
    (reps : List (Str × FieldMeta)) (d1 : Document)
    (h : ∀ fm ∈ reps, ∀ o, fm.2.original = some o →
      ∀ p ∈ allParagraphs d1, containsSub o p.text = false) :
    smartReplacePass clean reps d1 = d1 := by
  have := foldl_fixed (smartReplaceStep clean) d1 reps fun fm hfm =>
    smartReplaceStep_eq_self clean d1 fm fun o ho p hp => h fm hfm o ho p hp
  exact this

theorem smartReplacePass_body_at (clean : List (Str × Str))
    (reps : List (Str × FieldMeta)) (d : Document) (i : Nat) (p : Paragraph)
    (hp : d.paragraphs.get? i = some p)
    (h : ∀ fm ∈ reps, ∀ o, fm.2.original = some o →
      containsSub o p.text = false) :
    (smartReplacePass clean reps d).paragraphs.get? i = some p := by
  induction reps generalizing d with
  | nil => exact hp
  | cons fm rest ih =>
    have hstep : (smartReplaceStep clean d fm).paragraphs.get? i = some p := by
      rw [smartReplaceStep]
      split
      · exact hp
      · next o ho =>
        by_cases hoe : o = []
        · rw [if_pos hoe]
          exact hp
        · rw [if_neg hoe]
          dsimp only
          rw [List.get?_map, hp]
          simp [replaceInPara_of_not_contains _ _ _
            (h fm (List.mem_cons_self fm rest) o ho)]
    exact ih (smartReplaceStep clean d fm) hstep
      fun fm' hm' => h fm' (List.mem_cons_of_mem fm hm')

theorem smartReplacePass_cell_at (clean : List (Str × Str))
    (reps : List (Str × FieldMeta)) (d : Document)
    (ti ri ci pi : Nat) (t : Table) (r : TableRow) (c : Cell) (p : Paragraph)
    (ht : d.tables.get? ti = some t) (hr : t.rows.get? ri = some r)
    (hc : r.cells.get? ci = some c) (hp : c.paragraphs.get? pi = some p)
    (h : ∀ fm ∈ reps, ∀ o, fm.2.original = some o →
      containsSub o p.text = false) :
    ∃ t' r' c', (smartReplacePass clean reps d).tables.get? ti = some t' ∧
      t'.rows.get? ri = some r' ∧ r'.cells.get? ci = some c' ∧
      c'.paragraphs.get? pi = some p := by
  induction reps generalizing d t r c with
  | nil => exact ⟨t, r, c, ht, hr, hc, hp⟩
  | cons fm rest ih =>
    have hmain : ∃ t1 r1 c1,
        (smartReplaceStep clean d fm).tables.get? ti = some t1 ∧
        t1.rows.get? ri = some r1 ∧ r1.cells.get? ci = some c1 ∧
        c1.paragraphs.get? pi = some p := by
      rw [smartReplaceStep]
      split
      · exact ⟨t, r, c, ht, hr, hc, hp⟩
      · next o ho =>
        by_cases hoe : o = []
        · rw [if_pos hoe]
          exact ⟨t, r, c, ht, hr, hc, hp⟩
        · rw [if_neg hoe]
          dsimp only
          refine ⟨⟨t.rows.map fun r => ⟨r.cells.map fun c =>
              ⟨c.paragraphs.map (replaceInPara o ((dictGet clean fm.1).getD (fm.2.new.getD [])))⟩⟩⟩,
            ⟨r.cells.map fun c =>
              ⟨c.paragraphs.map (replaceInPara o ((dictGet clean fm.1).getD (fm.2.new.getD [])))⟩⟩,
            ⟨c.paragraphs.map (replaceInPara o ((dictGet clean fm.1).getD (fm.2.new.getD [])))⟩,
            ?_, ?_, ?_, ?_⟩
          · rw [List.get?_map, ht]
            rfl
          · show (t.rows.map _).get? ri = _
            rw [List.get?_map, hr]
            rfl
          · show (r.cells.map _).get? ci = _
            rw [List.get?_map, hc]
            rfl
          · show (c.paragraphs.map _).get? pi = _
            rw [List.get?_map, hp]
            simp [replaceInPara_of_not_contains _ _ _
              (h fm (List.mem_cons_self fm rest) o ho)]
    obtain ⟨t1, r1, c1, h1, h2, h3, h4⟩ := hmain
    exact ih (smartReplaceStep clean d fm) t1 r1 c1 h1 h2 h3 h4
      fun fm' hm' => h fm' (List.mem_cons_of_mem fm hm')

theorem generate_body_at (doc : Document) (filled_data : List (Str × JValue))
    (replacements : Option (List (Str × FieldMeta))) (i : Nat) (p : Paragraph)
    (hp : doc.paragraphs.get? i = some p)
    (hbr : '[' ∉ p.text)
    (h : ∀ reps, replacements = some reps → ∀ fm ∈ reps, ∀ o,
      fm.2.original = some o → containsSub o p.text = false) :
    (generate_filled_docx doc filled_data replacements).paragraphs.get? i = some p := by
  have hdoc1 : (match replacements with
      | none => doc
      | some reps => smartReplacePass (cleanData filled_data) reps doc).paragraphs.get? i
        = some p := by
    cases replacements with
    | none => exact hp
    | some reps => exact smartReplacePass_body_at _ reps doc i p hp (h reps rfl)
  show ((match replacements with
      | none => doc
      | some reps => smartReplacePass (cleanData filled_data) reps doc).paragraphs.map
        (bracketPassPara (cleanData filled_data))).get? i = some p
  rw [List.get?_map, hdoc1]
  simp [bracketPassPara, hbr]

theorem generate_cell_at (doc : Document) (filled_data : List (Str × JValue))
    (replacements : Option (List (Str × FieldMeta)))
    (ti ri ci pi : Nat) (t : Table) (r : TableRow) (c : Cell) (p : Paragraph)
    (ht : doc.tables.get? ti = some t) (hr : t.rows.get? ri = some r)
    (hc : r.cells.get? ci = some c) (hp : c.paragraphs.get? pi = some p)
    (h : ∀ reps, replacements = some reps → ∀ fm ∈ reps, ∀ o,
      fm.2.original = some o → containsSub o p.text = false) :
    ∃ t' r' c',
      (generate_filled_docx doc filled_data replacements).tables.get? ti = some t' ∧
      t'.rows.get? ri = some r' ∧ r'.cells.get? ci = some c' ∧
      c'.paragraphs.get? pi = some p := by
  show ∃ t' r' c',
      (match replacements with
        | none => doc
        | some reps => smartReplacePass (cleanData filled_data) reps doc).tables.get? ti
        = some t' ∧ _
  cases replacements with
  | none => exact ⟨t, r, c, ht, hr, hc, hp⟩
  | some reps =>
    exact smartReplacePass_cell_at _ reps doc ti ri ci pi t r c p ht hr hc hp (h reps rfl)

/-! Equivalence of the run rebuild with the spec's split rule. -/

theorem rebuildRuns_eq_splitRunsSpec (t : Str) : rebuildRuns t = splitRunsSpec t := by
  rw [rebuildRuns, splitRunsSpec]
  cases hf : findSub (toL ": ") t with
  | none =>
    have hc : containsSub (toL ": ") t = false := by
      rw [containsSub_eq_isSome_findSub, hf]
      rfl
    rw [splitOnL_of_not_contains _ _ hc]
  | some i =>
    have hlen2 : (toL ": ").length = 2 := rfl
    have hsp := splitOnL_of_findSub_some (toL ": ") t i (by decide) hf
    rw [hlen2] at hsp
    obtain ⟨h2, t2, hht⟩ : ∃ h2 t2, splitOnL (toL ": ") (t.drop (i + 2)) = h2 :: t2 := by
      cases hq : splitOnL (toL ": ") (t.drop (i + 2)) with
      | nil => exact absurd hq (splitOnL_ne_nil _ _)
      | cons h2 t2 => exact ⟨h2, t2, rfl⟩
    rw [hsp, hht]
    have hdecomp := findSub_decomp (toL ": ") t i hf
    rw [hlen2] at hdecomp
    have htake : t.take (i + 2) = t.take i ++ toL ": " := by
      have hlen : (t.take i).length = i := by
        have hl := congrArg List.length hdecomp
        simp only [List.length_append, List.length_take, hlen2] at hl
        simp only [List.length_take]
        omega
      conv_lhs => rw [hdecomp]
      exact List.take_left' (by simp [hlen, hlen2])
    have hdrop : t.drop (i + 2) = joinSep (toL ": ") (h2 :: t2) := by
      rw [← hht, joinSep_splitOnL (toL ": ") (by decide)]
    dsimp only
    rw [htake, hdrop]

/-! Characterisation of the bracket-token pass.  The working text of the
pass is always an interleaving of the segments of the original paragraph
text, some tokens already replaced by their (bracket-free) values
(`substP`); a token string `[m]` can only occur in such an interleaving
as one whole unreplaced token segment. -/

theorem leadsWith_get? (pat s : Str) (h : leadsWith pat s = true) :
    ∀ i, i < pat.length → s.get? i = pat.get? i := by
  obtain ⟨r, hr⟩ := (leadsWith_iff pat s).mp h
  subst hr
  intro i hi
  exact List.get?_append hi

theorem blocksAt_not_leadsWith (pat c r : Str) (h : blocksAt pat c) :
    leadsWith pat (c ++ r) = false := by
  obtain ⟨i, hip, hic, hne⟩ := h
  cases hl : leadsWith pat (c ++ r) with
  | false => rfl
  | true =>
    have := leadsWith_get? pat (c ++ r) hl i hip
    rw [List.get?_append hic] at this
    exact absurd this.symm hne

theorem leadsWith_false_of_head_ne (pat s : Str) (a b : Char)
    (hp : pat.get? 0 = some a) (hs : s.get? 0 = some b) (hne : a ≠ b) :
    leadsWith pat s = false := by
  cases pat with
  | nil => simp at hp
  | cons x xs =>
    cases s with
    | nil => rfl
    | cons y ys =>
      injection hp with hp
      injection hs with hs
      subst hp
      subst hs
      simp [leadsWith, hne]

theorem replaceAll_append_of_blocked (pat rep c r : Str)
    (h : ∀ j, j < c.length → leadsWith pat (c.drop j ++ r) = false) :
    replaceAll pat rep (c ++ r) = c ++ replaceAll pat rep r := by
  induction c with
  | nil => rfl
  | cons ch c' ih =>
    have h0 : leadsWith pat (ch :: (c' ++ r)) = false := by
      have := h 0 (by simp)
      simpa using this
    rw [List.cons_append, replaceAll_cons, if_neg (by simp [h0])]
    rw [ih fun j hj => by simpa using h (j + 1) (by simp only [List.length_cons]; omega)]
    rfl

theorem containsSub_append_of_blocked (pat c r : Str)
    (h : ∀ j, j < c.length → leadsWith pat (c.drop j ++ r) = false) :
    containsSub pat (c ++ r) = containsSub pat r := by
  induction c with
  | nil => rfl
  | cons ch c' ih =>
    rw [List.cons_append]
    show (leadsWith pat (ch :: (c' ++ r)) || containsSub pat (c' ++ r)) = _
    have h0 := h 0 (by simp)
    simp only [List.drop_zero, List.cons_append] at h0
    rw [h0, Bool.false_or]
    exact ih fun j hj => by
      have := h (j + 1) (by simp; omega)
      simpa using this

theorem chunk_blocked_positions (pat c r : Str)
    (hhead : pat.get? 0 = some '[') (htail : '[' ∉ c.drop 1)
    (hblk : blocksAt pat c ∨ c = []) :
    ∀ j, j < c.length → leadsWith pat (c.drop j ++ r) = false := by
  intro j hj
  cases j with
  | zero =>
    rcases hblk with hblk | hnil
    · simpa using blocksAt_not_leadsWith pat c r hblk
    · subst hnil
      simp at hj
  | succ j =>
    obtain ⟨x, hx⟩ : ∃ x, c.get? (j + 1) = some x := by
      cases hc : c.get? (j + 1) with
      | none =>
        rw [List.get?_eq_none] at hc
        omega
      | some x => exact ⟨x, rfl⟩
    have hxmem : x ∈ c.drop 1 := by
      have hg : (c.drop 1).get? j = some x := by
        rw [List.get?_drop]
        simpa [Nat.add_comm] using hx
      exact List.get?_mem hg
    have hxne : x ≠ '[' := fun he => htail (he ▸ hxmem)
    have hhead2 : (c.drop (j + 1) ++ r).get? 0 = some x := by
      have hlen : 0 < (c.drop (j + 1)).length := by
        simp only [List.length_drop]
        omega
      rw [List.get?_append hlen, List.get?_drop]
      simpa using hx
    exact leadsWith_false_of_head_ne pat _ '[' x hhead hhead2 (Ne.symm hxne)

theorem replaceAll_append_self_left (pat rep r : Str) (hp : pat ≠ []) :
    replaceAll pat rep (pat ++ r) = rep ++ replaceAll pat rep r := by
  cases hpat : pat with
  | nil => exact absurd hpat hp
  | cons q qs =>
    rw [List.cons_append, replaceAll_cons,
      if_pos ⟨by rw [← List.cons_append, ← hpat]; exact leadsWith_append_self pat r,
        by rw [← hpat]; exact hp⟩]
    rw [← List.cons_append, ← hpat, List.drop_left]

theorem containsSub_append_self_left (pat r : Str) (hp : pat ≠ []) :
    containsSub pat (pat ++ r) = true := by
  obtain ⟨q, qs, rfl⟩ : ∃ q qs, pat = q :: qs := by
    cases pat with
    | nil => exact absurd rfl hp
    | cons q qs => exact ⟨q, qs, rfl⟩
  show (leadsWith (q :: qs) (q :: (qs ++ r)) || containsSub (q :: qs) (qs ++ r)) = true
  have h1 : leadsWith (q :: qs) (q :: (qs ++ r)) = true := leadsWith_append_self (q :: qs) r
  rw [h1, Bool.true_or]

theorem replaceAll_joinL (pat rep : Str) (hp : pat ≠ [])
    (hhead : pat.get? 0 = some '[') (cs : List Str)
    (h : ∀ c ∈ cs, '[' ∉ c.drop 1 ∧ (c = pat ∨ blocksAt pat c ∨ c = [])) :
    replaceAll pat rep (joinL cs) = joinL (cs.map fun c => if c = pat then rep else c) := by
  induction cs with
  | nil => rfl
  | cons c rest ih =>
    have hc := h c (List.mem_cons_self c rest)
    have hrest := fun c' hc' => h c' (List.mem_cons_of_mem c hc')
    show replaceAll pat rep (c ++ joinL rest) = joinL ((if c = pat then rep else c) :: rest.map _)
    by_cases hcp : c = pat
    · subst hcp
      rw [if_pos rfl, replaceAll_append_self_left c rep _ hp, ih hrest]
      rfl
    · rcases hc.2 with hb | hb
      · exact absurd hb hcp
      · rw [replaceAll_append_of_blocked pat rep c (joinL rest)
          (chunk_blocked_positions pat c _ hhead hc.1 hb), ih hrest, if_neg hcp]
        rfl

theorem containsSub_joinL (pat : Str) (hp : pat ≠ [])
    (hhead : pat.get? 0 = some '[') (cs : List Str)
    (h : ∀ c ∈ cs, '[' ∉ c.drop 1 ∧ (c = pat ∨ blocksAt pat c ∨ c = [])) :
    containsSub pat (joinL cs) = cs.any fun c => c = pat := by
  induction cs with
  | nil =>
    show pat.isEmpty = false
    cases pat with
    | nil => exact absurd rfl hp
    | cons q qs => rfl
  | cons c rest ih =>
    have hc := h c (List.mem_cons_self c rest)
    have hrest := fun c' hc' => h c' (List.mem_cons_of_mem c hc')
    show containsSub pat (c ++ joinL rest) = (decide (c = pat) || rest.any fun c => decide (c = pat))
    by_cases hcp : c = pat
    · subst hcp
      rw [containsSub_append_self_left c _ hp]
      simp
    · rcases hc.2 with hb | hb
      · exact absurd hb hcp
      · rw [containsSub_append_of_blocked pat c (joinL rest)
          (chunk_blocked_positions pat c _ hhead hc.1 hb), ih hrest]
        simp [hcp]

theorem tokStr_ne_nil (m : Str) : tokStr m ≠ [] := by
  simp [tokStr]

theorem tokStr_head (m : Str) : (tokStr m).get? 0 = some '[' := rfl

theorem tokStr_inj (m n : Str) (h : tokStr m = tokStr n) : m = n := by
  rw [tokStr, tokStr] at h
  injection h with h1 h2
  have hlen : m.length = n.length := by
    have := congrArg List.length h2
    simpa using this
  have h2' : m ++ [']'] = n ++ [']'] := h2
  calc m = (m ++ [']']).take m.length := (List.take_left m [']']).symm
    _ = (n ++ [']']).take n.length := by rw [h2', hlen]
    _ = n := List.take_left n [']']

theorem exists_diff : ∀ (m n : Str), ']' ∉ m → ']' ∉ n → m ≠ n →
    ∃ i, i < (m ++ [']']).length ∧ i < (n ++ [']']).length ∧
      (m ++ [']']).get? i ≠ (n ++ [']']).get? i := by
  intro m
  induction m with
  | nil =>
    intro n hm hn hne
    cases n with
    | nil => exact absurd rfl hne
    | cons b n' =>
      refine ⟨0, by simp, by simp, ?_⟩
      have hb : b ≠ ']' := fun he => hn (by simp [he])
      intro hcon
      rw [List.nil_append] at hcon
      injection hcon with hcon
      exact hb hcon.symm
  | cons a m' ih =>
    intro n hm hn hne
    cases n with
    | nil =>
      refine ⟨0, by simp, by simp, ?_⟩
      have ha : a ≠ ']' := fun he => hm (by simp [he])
      intro hcon
      rw [List.nil_append] at hcon
      injection hcon with hcon
      exact ha hcon
    | cons b n' =>
      by_cases hab : a = b
      · subst hab
        have hne' : m' ≠ n' := fun he => hne (by rw [he])
        obtain ⟨i, h1, h2, h3⟩ := ih n' (fun hc => hm (List.mem_cons_of_mem a hc))
          (fun hc => hn (List.mem_cons_of_mem a hc)) hne'
        refine ⟨i + 1, ?_, ?_, ?_⟩
        · simp only [List.cons_append, List.length_cons]
          simpa using Nat.succ_lt_succ h1
        · simp only [List.cons_append, List.length_cons]
          simpa using Nat.succ_lt_succ h2
        · simpa [List.cons_append] using h3
      · exact ⟨0, by simp, by simp, by
          simp only [List.cons_append, List.get?_cons_zero]
          intro hcon
          injection hcon with hcon
          exact hab hcon⟩

theorem tok_blocks (m n : Str) (hm : ']' ∉ m) (hn : ']' ∉ n) (hne : m ≠ n) :
    blocksAt (tokStr m) (tokStr n) := by
  obtain ⟨i, h1, h2, h3⟩ := exists_diff m n hm hn hne
  refine ⟨i + 1, ?_, ?_, ?_⟩
  · simp only [tokStr, List.length_cons]
    simpa using Nat.succ_lt_succ h1
  · simp only [tokStr, List.length_cons]
    simpa using Nat.succ_lt_succ h2
  · simpa [tokStr, List.get?_cons_succ] using h3

theorem dictGet_mem {α : Type _} (d : List (Str × α)) (k : Str) (v : α)
    (h : dictGet d k = some v) : ∃ kv ∈ d, kv.2 = v := by
  rw [dictGet] at h
  obtain ⟨kv, hfind, hv⟩ := Option.map_eq_some'.mp h
  exact ⟨kv, List.mem_reverse.mp (List.mem_of_find?_eq_some hfind), hv⟩

theorem tokStr_ok_chunk (m n : Str)
    (hm : ∀ c ∈ m, nb c = true) (hn : ∀ c ∈ n, nb c = true) :
    '[' ∉ (tokStr n).drop 1 ∧
      (tokStr n = tokStr m ∨ blocksAt (tokStr m) (tokStr n)) := by
  constructor
  · intro hx
    have hx' : '[' ∈ n := by simpa [tokStr] using hx
    have := hn _ hx'
    simp [nb] at this
  · by_cases hnm : n = m
    · subst hnm
      left
      rfl
    · right
      apply tok_blocks
      · intro hc
        have := hm _ hc
        simp [nb] at this
      · intro hc
        have := hn _ hc
        simp [nb] at this
      · exact Ne.symm hnm

theorem chunkOf_ok (fv : List (Str × Str)) (P : List Str) (t : Str) (m : Str)
    (hfv : bracketFreeVals fv) (hwb : wellBracketed t = true)
    (hmtok : Seg.tok m ∈ segs t) :
    ∀ sg ∈ segs t, '[' ∉ (chunkOf fv P sg).drop 1 ∧
      (chunkOf fv P sg = tokStr m ∨ blocksAt (tokStr m) (chunkOf fv P sg) ∨
        chunkOf fv P sg = []) := by
  have hmshape := segs_tok_shape t m hmtok
  intro sg hsg
  cases sg with
  | lit c =>
    have hcnb : nb c = true := by
      have := List.all_eq_true.mp hwb _ hsg
      simpa using this
    have hcne : c ≠ '[' := by
      simp [nb] at hcnb
      exact hcnb.1
    refine ⟨by simp [chunkOf], Or.inr (Or.inl ?_)⟩
    refine ⟨0, by simp [tokStr], by simp [chunkOf], ?_⟩
    rw [tokStr_head]
    show some '[' ≠ ([c].get? 0)
    intro he
    injection he with he
    exact hcne he.symm
  | tok n =>
    have hnshape := segs_tok_shape t n hsg
    cases hdg : dictGet fv (pyStrip n) with
    | none =>
      have hok := tokStr_ok_chunk m n hmshape.2 hnshape.2
      simp only [chunkOf, hdg]
      exact ⟨hok.1, by rcases hok.2 with h | h; exact Or.inl h; exact Or.inr (Or.inl h)⟩
    | some v =>
      by_cases hnP : n ∈ P
      · simp only [chunkOf, hdg, if_pos hnP]
        obtain ⟨kv, hkvmem, hkv⟩ := dictGet_mem fv (pyStrip n) v hdg
        have hv : '[' ∉ v ∧ ']' ∉ v := hkv ▸ hfv kv hkvmem
        constructor
        · exact fun hx => hv.1 (List.mem_of_mem_drop hx)
        · cases hvc : v with
          | nil => exact Or.inr (Or.inr rfl)
          | cons x xs =>
            refine Or.inr (Or.inl ⟨0, by simp [tokStr], by simp, ?_⟩)
            rw [tokStr_head]
            have hx : x ≠ '[' := fun he => hv.1 (by simp [hvc, he])
            show some '[' ≠ ((x :: xs).get? 0)
            intro he
            injection he with he
            exact hx he.symm
      · simp only [chunkOf, hdg, if_neg hnP]
        have hok := tokStr_ok_chunk m n hmshape.2 hnshape.2
        exact ⟨hok.1, by rcases hok.2 with h | h; exact Or.inl h; exact Or.inr (Or.inl h)⟩

theorem substP_nilP (fv : List (Str × Str)) (t : Str) : substP fv [] t = t := by
  rw [substP]
  have hmap : (segs t).map (chunkOf fv []) = (segs t).map segStr := by
    apply List.map_congr_left
    intro sg _
    cases sg with
    | lit c => rfl
    | tok n =>
      simp only [chunkOf]
      cases dictGet fv (pyStrip n) with
      | none => rfl
      | some v => simp [segStr]
  rw [hmap]
  exact render_segs t

theorem substP_ext (fv : List (Str × Str)) (P P' : List Str) (t : Str)
    (h : ∀ n, Seg.tok n ∈ segs t → (n ∈ P ↔ n ∈ P')) :
    substP fv P t = substP fv P' t := by
  rw [substP, substP]
  congr 1
  apply List.map_congr_left
  intro sg hsg
  cases sg with
  | lit c => rfl
  | tok n =>
    simp only [chunkOf]
    cases dictGet fv (pyStrip n) with
    | none => rfl
    | some v =>
      dsimp only
      by_cases hn : n ∈ P
      · rw [if_pos hn, if_pos ((h n hsg).mp hn)]
      · rw [if_neg hn, if_neg fun hc => hn ((h n hsg).mpr hc)]

theorem substP_step (fv : List (Str × Str)) (P : List Str) (t : Str)
    (m : Str) (v : Str)
    (hfv : bracketFreeVals fv) (hwb : wellBracketed t = true)
    (hkey : dictGet fv (pyStrip m) = some v) (htok : Seg.tok m ∈ segs t)
    (hmP : m ∉ P) :
    replaceAll (tokStr m) v (substP fv P t) = substP fv (m :: P) t := by
  rw [substP, substP]
  have hok : ∀ c ∈ (segs t).map (chunkOf fv P), '[' ∉ c.drop 1 ∧
      (c = tokStr m ∨ blocksAt (tokStr m) c ∨ c = []) := by
    intro c hcmem
    obtain ⟨sg, hsg, rfl⟩ := List.mem_map.mp hcmem
    exact chunkOf_ok fv P t m hfv hwb htok sg hsg
  rw [replaceAll_joinL (tokStr m) v (tokStr_ne_nil m) (tokStr_head m) _ hok]
  congr 1
  rw [List.map_map]
  apply List.map_congr_left
  intro sg hsg
  simp only [Function.comp_apply]
  cases sg with
  | lit c =>
    rw [if_neg fun he => by
      have := congrArg List.length he
      simp [tokStr, chunkOf] at this]
    rfl
  | tok n =>
    simp only [chunkOf]
    cases hdg : dictGet fv (pyStrip n) with
    | none =>
      dsimp only
      rw [if_neg fun he => by
        have hnm := tokStr_inj n m he
        rw [hnm] at hdg
        rw [hkey] at hdg
        cases hdg]
    | some w =>
      dsimp only
      by_cases hnP : n ∈ P
      · rw [if_pos hnP]
        obtain ⟨kv, hkvmem, hkv⟩ := dictGet_mem fv (pyStrip n) w hdg
        have hw : '[' ∉ w ∧ ']' ∉ w := hkv ▸ hfv kv hkvmem
        rw [if_neg fun he => hw.1 (by rw [he]; simp [tokStr])]
        rw [if_pos (List.mem_cons_of_mem m hnP)]
      · rw [if_neg hnP]
        by_cases hnm : n = m
        · rw [hnm] at hdg
          rw [hkey] at hdg
          injection hdg with hvw
          rw [hnm, if_pos rfl, if_pos (List.mem_cons_self m P), hvw]
        · rw [if_neg fun he => hnm (tokStr_inj n m he)]
          rw [if_neg (by simp [hnm, hnP])]

theorem substP_contains_of_not_processed (fv : List (Str × Str)) (P : List Str)
    (t : Str) (m : Str) (v : Str)
    (hfv : bracketFreeVals fv) (hwb : wellBracketed t = true)
    (hkey : dictGet fv (pyStrip m) = some v) (htok : Seg.tok m ∈ segs t)
    (hmP : m ∉ P) :
    containsSub (tokStr m) (substP fv P t) = true := by
  rw [substP]
  have hok : ∀ c ∈ (segs t).map (chunkOf fv P), '[' ∉ c.drop 1 ∧
      (c = tokStr m ∨ blocksAt (tokStr m) c ∨ c = []) := by
    intro c hcmem
    obtain ⟨sg, hsg, rfl⟩ := List.mem_map.mp hcmem
    exact chunkOf_ok fv P t m hfv hwb htok sg hsg
  rw [containsSub_joinL (tokStr m) (tokStr_ne_nil m) (tokStr_head m) _ hok]
  rw [List.any_eq_true]
  refine ⟨chunkOf fv P (Seg.tok m), List.mem_map_of_mem _ htok, ?_⟩
  simp [chunkOf, hkey, hmP]

theorem substP_not_contains_of_processed (fv : List (Str × Str)) (P : List Str)
    (t : Str) (m : Str) (v : Str)
    (hfv : bracketFreeVals fv) (hwb : wellBracketed t = true)
    (hkey : dictGet fv (pyStrip m) = some v) (htok : Seg.tok m ∈ segs t)
    (hmP : m ∈ P) :
    containsSub (tokStr m) (substP fv P t) = false := by
  rw [substP]
  have hok : ∀ c ∈ (segs t).map (chunkOf fv P), '[' ∉ c.drop 1 ∧
      (c = tokStr m ∨ blocksAt (tokStr m) c ∨ c = []) := by
    intro c hcmem
    obtain ⟨sg, hsg, rfl⟩ := List.mem_map.mp hcmem
    exact chunkOf_ok fv P t m hfv hwb htok sg hsg
  rw [containsSub_joinL (tokStr m) (tokStr_ne_nil m) (tokStr_head m) _ hok]
  rw [List.any_eq_false]
  intro c hcmem
  obtain ⟨sg, hsg, rfl⟩ := List.mem_map.mp hcmem
  simp only [decide_eq_true_eq]
  cases sg with
  | lit ch =>
    intro he
    have := congrArg List.length he
    simp [tokStr, chunkOf] at this
  | tok n =>
    simp only [chunkOf]
    cases hdg : dictGet fv (pyStrip n) with
    | none =>
      intro he
      have hnm := tokStr_inj n m he
      rw [hnm] at hdg
      rw [hkey] at hdg
      cases hdg
    | some w =>
      dsimp only
      by_cases hnP : n ∈ P
      · rw [if_pos hnP]
        obtain ⟨kv, hkvmem, hkv⟩ := dictGet_mem fv (pyStrip n) w hdg
        have hw : '[' ∉ w ∧ ']' ∉ w := hkv ▸ hfv kv hkvmem
        exact fun he => hw.1 (by rw [he]; simp [tokStr])
      · rw [if_neg hnP]
        intro he
        have hnm := tokStr_inj n m he
        rw [hnm] at hnP
        exact hnP hmP

theorem findMatches_mem_iff (t : Str) (m : Str) :
    m ∈ findMatches t ↔ Seg.tok m ∈ segs t := by
  rw [findMatches, List.mem_filterMap]
  constructor
  · rintro ⟨sg, hsg, heq⟩
    cases sg with
    | lit c => cases heq
    | tok n =>
      injection heq with heq
      exact heq ▸ hsg
  · intro h
    exact ⟨Seg.tok m, h, rfl⟩

theorem findMatches_of_no_bracket (t : Str) (h : '[' ∉ t) :
    findMatches t = [] := by
  induction t with
  | nil => rfl
  | cons c cs ih =>
    have hc : c ≠ '[' := fun he => h (he ▸ List.mem_cons_self c cs)
    have hcs : '[' ∉ cs := fun he => h (List.mem_cons_of_mem c he)
    show (segs (c :: cs)).filterMap _ = []
    rw [segs_cons_other c cs hc]
    exact ih hcs

theorem substP_full (fv : List (Str × Str)) (t : Str) :
    substP fv ((findMatches t).filter (keyed fv)) t = substSpec fv t := by
  rw [substP, substSpec]
  congr 1
  apply List.map_congr_left
  intro sg hsg
  cases sg with
  | lit c => rfl
  | tok n =>
    simp only [chunkOf]
    cases hdg : dictGet fv (pyStrip n) with
    | none => rfl
    | some v =>
      dsimp only
      rw [if_pos (List.mem_filter.mpr
        ⟨(findMatches_mem_iff t n).mpr hsg, by simp [keyed, hdg]⟩)]

theorem bracketFold_inv (fv : List (Str × Str)) (t : Str)
    (hfv : bracketFreeVals fv) (hwb : wellBracketed t = true) :
    ∀ (ms : List Str) (P : List Str) (b : Bool),
      (∀ m ∈ ms, Seg.tok m ∈ segs t) →
      List.foldl (bracketStep fv) (substP fv P t, b) ms =
        (substP fv (P ++ ms.filter (keyed fv)) t,
         b || ms.any fun m => keyed fv m && decide (m ∉ P)) := by
  intro ms
  induction ms with
  | nil =>
    intro P b _
    simp
  | cons m rest ih =>
    intro P b hms
    have hmtok := hms m (List.mem_cons_self m rest)
    have hrest := fun m' hm' => hms m' (List.mem_cons_of_mem m hm')
    rw [List.foldl_cons]
    cases hdg : dictGet fv (pyStrip m) with
    | none =>
      have hk : keyed fv m = false := by simp [keyed, hdg]
      have hstep : bracketStep fv (substP fv P t, b) m = (substP fv P t, b) := by
        simp [bracketStep, hdg]
      rw [hstep, ih P b hrest]
      simp [hk]
    | some v =>
      have hk : keyed fv m = true := by simp [keyed, hdg]
      by_cases hmP : m ∈ P
      · have hc := substP_not_contains_of_processed fv P t m v hfv hwb hdg hmtok hmP
        have hstep : bracketStep fv (substP fv P t, b) m = (substP fv P t, b) := by
          simp [bracketStep, hdg, hc]
        rw [hstep, ih P b hrest]
        have h1 : substP fv (P ++ rest.filter (keyed fv)) t
            = substP fv (P ++ m :: rest.filter (keyed fv)) t := by
          apply substP_ext
          intro n _
          simp only [List.mem_append, List.mem_cons]
          constructor
          · intro hh
            tauto
          · rintro (hh | hh | hh)
            · exact Or.inl hh
            · exact Or.inl (hh ▸ hmP)
            · exact Or.inr hh
        rw [h1, List.filter_cons_of_pos hk]
        simp [hk, hmP]
      · have hc := substP_contains_of_not_processed fv P t m v hfv hwb hdg hmtok hmP
        have hstep : bracketStep fv (substP fv P t, b) m =
            (substP fv (m :: P) t, true) := by
          simp [bracketStep, hdg, hc, substP_step fv P t m v hfv hwb hdg hmtok hmP]
        rw [hstep, ih (m :: P) true hrest]
        have h1 : substP fv ((m :: P) ++ rest.filter (keyed fv)) t
            = substP fv (P ++ m :: rest.filter (keyed fv)) t := by
          apply substP_ext
          intro n _
          simp only [List.cons_append, List.mem_append, List.mem_cons]
          tauto
        rw [h1, List.filter_cons_of_pos hk]
        simp [hk, hmP]

theorem bracketPassPara_spec (fv : List (Str × Str)) (p : Paragraph)
    (hfv : bracketFreeVals fv) (hwb : wellBracketed p.text = true) :
    bracketPassPara fv p =
      if (findMatches p.text).any (keyed fv) then
        ⟨splitRunsSpec (substSpec fv p.text)⟩
      else p := by
  rw [bracketPassPara]
  by_cases hbr : '[' ∈ p.text
  · rw [if_pos hbr]
    have hms : ∀ m ∈ findMatches p.text, Seg.tok m ∈ segs p.text :=
      fun m hm => (findMatches_mem_iff _ m).mp hm
    have hstart : (p.text, false) = (substP fv [] p.text, (false : Bool)) := by
      rw [substP_nilP]
    dsimp only
    rw [hstart, bracketFold_inv fv p.text hfv hwb (findMatches p.text) [] false hms]
    dsimp only
    have hany : ((findMatches p.text).any fun m => keyed fv m && decide (m ∉ ([] : List Str)))
        = (findMatches p.text).any (keyed fv) := by
      simp
    rw [Bool.false_or, hany, List.nil_append, substP_full,
      rebuildRuns_eq_splitRunsSpec]
  · rw [if_neg hbr]
    rw [findMatches_of_no_bracket _ hbr]
    simp

/-! Sortedness and membership of extract_placeholders. -/

theorem strLe_total : ∀ a b : Str, strLe a b = true ∨ strLe b a = true := by
  intro a
  induction a with
  | nil => intro b; exact Or.inl rfl
  | cons x xs ih =>
    intro b
    cases b with
    | nil => exact Or.inr rfl
    | cons y ys =>
      by_cases hxy : x = y
      · subst hxy
        rcases ih ys with h | h
        · exact Or.inl (by simp [strLe, h])
        · exact Or.inr (by simp [strLe, h])
      · rcases lt_trichotomy x y with hlt | heq | hgt
        · exact Or.inl (by simp [strLe, hxy, hlt])
        · exact absurd heq hxy
        · exact Or.inr (by simp [strLe, Ne.symm hxy, hgt])

theorem strLe_trans : ∀ a b c : Str, strLe a b = true → strLe b c = true →
    strLe a c = true := by
  intro a
  induction a with
  | nil => intro b c _ _; rfl
  | cons x xs ih =>
    intro b c hab hbc
    cases b with
    | nil => simp [strLe] at hab
    | cons y ys =>
      cases c with
      | nil => simp [strLe] at hbc
      | cons z zs =>
        simp only [strLe] at hab hbc ⊢
        by_cases hxy : x = y
        · subst hxy
          by_cases hyz : x = z
          · subst hyz
            rw [if_pos rfl] at hab hbc ⊢
            exact ih ys zs hab hbc
          · rw [if_pos rfl] at hab
            rw [if_neg hyz] at hbc ⊢
            exact hbc
        · by_cases hyz : y = z
          · subst hyz
            rw [if_neg hxy] at hab ⊢
            exact hab
          · rw [if_neg hxy] at hab
            rw [if_neg hyz] at hbc
            have hxz : x < z := lt_trans (of_decide_eq_true hab) (of_decide_eq_true hbc)
            rw [if_neg (ne_of_lt hxz)]
            simp [hxz]

theorem sortStrings_sorted (l : List Str) : List.Sorted strLeP (sortStrings l) :=
  @List.sorted_insertionSort Str strLeP _ ⟨fun a b => strLe_total a b⟩
    ⟨fun a b c => strLe_trans a b c⟩ l

theorem sortStrings_perm (l : List Str) : List.Perm (sortStrings l) l :=
  List.perm_insertionSort strLeP l

theorem extract_mem_iff (doc : Document) (name : Str) :
    name ∈ extract_placeholders doc ↔
      ∃ p ∈ doc.paragraphs, Seg.tok name ∈ segs p.text := by
  rw [extract_placeholders]
  rw [(sortStrings_perm _).mem_iff, List.mem_dedup, List.mem_flatten]
  constructor
  · rintro ⟨l, hl, hn⟩
    obtain ⟨p, hp, rfl⟩ := List.mem_map.mp hl
    exact ⟨p, hp, (findMatches_mem_iff _ _).mp hn⟩
  · rintro ⟨p, hp, hn⟩
    exact ⟨findMatches p.text, List.mem_map_of_mem _ hp,
      (findMatches_mem_iff _ _).mpr hn⟩

theorem extract_nodup (doc : Document) : (extract_placeholders doc).Nodup :=
  (sortStrings_perm _).nodup_iff.mpr (List.nodup_dedup _)

theorem extract_sorted (doc : Document) :
    List.Sorted strLeP (extract_placeholders doc) :=
  sortStrings_sorted _

/-! The endpoint slices. -/

theorem normalizeValue_isStr (v : JValue) : ∃ s, normalizeValue v = JValue.str s := by
  cases v with
  | arr xs =>
    by_cases h : xs.all isStr = true
    · exact ⟨joinSep (toL ", ") (xs.map strOfJ), by simp [normalizeValue, h]⟩
    · exact ⟨dumps (JValue.arr xs), by simp [normalizeValue, h]⟩
  | obj fs => exact ⟨_, rfl⟩
  | null => exact ⟨_, rfl⟩
  | str s => exact ⟨_, rfl⟩
  | num n => exact ⟨_, rfl⟩
  | bool b => exact ⟨_, rfl⟩

/-! The claims. -/

/-- C1: bracket-token pass of fill.  For a body paragraph whose text
contains a `[`, every bracket-delimited name whose trimmed form is a key
of the field values has its token `[name]` replaced by the mapped value
everywhere, and when at least one such substitution occurred the runs are
rebuilt from the substituted text by the first-`": "` bold-label rule;
otherwise the paragraph is untouched.  Stated as: the pass equals the
spec-side simultaneous substitution `substSpec` with runs rebuilt by the
spec-side `splitRunsSpec`, for field values free of bracket characters
and a paragraph whose brackets all form placeholder tokens. -/
theorem bracket_token_pass_spec (fv : List (Str × Str)) (p : Paragraph)
    (hfv : bracketFreeVals fv) (hwb : wellBracketed p.text = true) :
    bracketPassPara fv p =
      if (findMatches p.text).any (keyed fv) then
        ⟨splitRunsSpec (substSpec fv p.text)⟩
      else p :=
  bracketPassPara_spec fv p hfv hwb

/-- C1 witness: filling the paragraph "Patient: [Name]" with
`{"Name": "Jane Smith"}` yields the text "Patient: Jane Smith" as a bold
"Patient: " run followed by a non-bold "Jane Smith" run. -/
theorem bracket_token_pass_spec_witness :
    bracketFreeVals [(toL "Name", toL "Jane Smith")] ∧
    wellBracketed (Paragraph.mk [⟨toL "Patient: [Name]", none⟩]).text = true ∧
    bracketPassPara [(toL "Name", toL "Jane Smith")]
        ⟨[⟨toL "Patient: [Name]", none⟩]⟩ =
      ⟨[⟨toL "Patient: ", some true⟩, ⟨toL "Jane Smith", some false⟩]⟩ := by
  refine ⟨by unfold bracketFreeVals; decide, by decide, ?_⟩
  exact (bracket_token_pass_spec [(toL "Name", toL "Jane Smith")]
    ⟨[⟨toL "Patient: [Name]", none⟩]⟩ (by unfold bracketFreeVals; decide)
    (by decide)).trans (by decide)

/-- C2: literal-span pass of fill.  With a replacements mapping supplied
(each spec's original present and non-empty), the pass transforms the
texts of every body paragraph and every table-cell paragraph exactly as
the spec describes: for each `(name, original, new)` in order the final
value is the trimmed-key, stringified field value when present and the
stored fallback `new` otherwise, and every occurrence of `original` (not
just the first) is replaced in every paragraph containing it. -/
theorem literal_span_pass_spec (filled_data : List (Str × JValue))
    (reps : List (Str × FieldMeta)) (doc : Document)
    (h : ∀ fm ∈ reps, ∃ o, fm.2.original = some o ∧ o ≠ []) :
    (smartReplacePass (cleanData filled_data) reps doc).texts =
      literalSpecPass (cleanData filled_data)
        (reps.map fun fm => (fm.1, fm.2.original.getD [], fm.2.new.getD []))
        doc.texts :=
  smartReplacePass_texts (cleanData filled_data) reps doc h

/-- C2 witness: replacing the span "ALICE" with the trimmed-key field
value "Bob" rewrites both occurrences in the body paragraph and the
occurrence in the table cell. -/
theorem literal_span_pass_spec_witness :
    (∀ fm ∈ aliceReps, ∃ o, fm.2.original = some o ∧ o ≠ []) ∧
    (smartReplacePass (cleanData [(toL " Name ", JValue.str (toL "Bob"))])
        aliceReps aliceDoc).texts =
      literalSpecPass (cleanData [(toL " Name ", JValue.str (toL "Bob"))])
        (aliceReps.map fun fm => (fm.1, fm.2.original.getD [], fm.2.new.getD []))
        aliceDoc.texts ∧
    (smartReplacePass (cleanData [(toL " Name ", JValue.str (toL "Bob"))])
        aliceReps aliceDoc).texts.paragraphs = [toL "Hi Bob and Bob"] := by
  have hhyp : ∀ fm ∈ aliceReps, ∃ o, fm.2.original = some o ∧ o ≠ [] := by
    intro fm hfm
    rcases List.mem_singleton.mp (by simpa [aliceReps] using hfm) with rfl
    exact ⟨toL "ALICE", rfl, by decide⟩
  exact ⟨hhyp, literal_span_pass_spec _ aliceReps aliceDoc hhyp, by decide⟩

/-- C3: extract_placeholders returns the bracket-span names of the body
paragraphs, each distinct name exactly once, in lexicographic order, and
returns the empty list when no paragraph has a bracket span. -/
theorem extract_placeholders_spec (doc : Document) :
    (extract_placeholders doc).Nodup ∧
    List.Sorted strLeP (extract_placeholders doc) ∧
    (∀ name : Str, name ∈ extract_placeholders doc ↔
      ∃ p ∈ doc.paragraphs, Seg.tok name ∈ segs p.text) ∧
    ((∀ p ∈ doc.paragraphs, ∀ name : Str, Seg.tok name ∉ segs p.text) →
      extract_placeholders doc = []) := by
  refine ⟨extract_nodup doc, extract_sorted doc,
    fun name => extract_mem_iff doc name, ?_⟩
  intro h
  apply List.eq_nil_iff_forall_not_mem.mpr
  intro name hname
  obtain ⟨p, hp, hn⟩ := (extract_mem_iff doc name).mp hname
  exact h p hp name hn

/-- C3 witness: the example template with paragraphs "Patient: [Name]",
"DOB: [Name]", "Visit: [Date]" yields exactly ["Date", "Name"], and the
empty document yields the empty list. -/
theorem extract_placeholders_spec_witness :
    extract_placeholders exampleTemplateDoc = [toL "Date", toL "Name"] ∧
    (toL "Name" ∈ extract_placeholders exampleTemplateDoc ↔
      ∃ p ∈ exampleTemplateDoc.paragraphs, Seg.tok (toL "Name") ∈ segs p.text) ∧
    extract_placeholders ⟨[], []⟩ = [] := by
  refine ⟨by decide,
    (extract_placeholders_spec exampleTemplateDoc).2.2.1 (toL "Name"),
    (extract_placeholders_spec ⟨[], []⟩).2.2.2 ?_⟩
  intro p hp
  exact absurd hp (List.not_mem_nil p)

/-- C4 counterexample: a document whose only bracket token "[Name]" sits
inside a table cell yields no placeholders at all — the name does not
appear in the returned set, contradicting the claim that table-cell
paragraphs are scanned. -/
theorem extract_placeholders_tables_cex :
    extract_placeholders cellOnlyDoc = [] ∧
    toL "Name" ∉ extract_placeholders cellOnlyDoc := by
  exact ⟨by decide, by decide⟩

/-- C4 (amended): extract_placeholders scans only the body paragraphs;
its result is unchanged by the document's tables, and a name appears in
it exactly when some body paragraph has that bracket span. -/
theorem extract_placeholders_body_only (doc : Document) :
    extract_placeholders doc = extract_placeholders ⟨doc.paragraphs, []⟩ ∧
    (∀ name : Str, name ∈ extract_placeholders doc ↔
      ∃ p ∈ doc.paragraphs, Seg.tok name ∈ segs p.text) :=
  ⟨rfl, fun name => extract_mem_iff doc name⟩

/-- C5 counterexample: in explicit (standard placeholder) mode a
collaborator response that is not valid JSON is NOT replaced by an empty
mapping — the `except: pass` handler leaves the raw response string in
`parsed_data`, and the caller receives that raw string, not `{}`. -/
theorem explicit_parse_failure_cex :
    finalizeParsedData (toL "not json") none = ParsedData.rawStr (toL "not json") ∧
    finalizeParsedData (toL "not json") none ≠ ParsedData.json (JValue.obj []) :=
  ⟨rfl, fun h => nomatch h⟩

/-- C5 (amended): on a parse failure no exception reaches the caller; in
explicit mode the data returned to the caller is the raw response string
itself (not an empty mapping), while in implicit (smart) mode the parse
failure does fall back to the empty mapping. -/
theorem parse_failure_soft (resp : Str) :
    finalizeParsedData resp none = ParsedData.rawStr resp ∧
    smartInferredData none = [] :=
  ⟨rfl, rfl⟩

/-- C6: implicit-mode date fallback.  A field object whose name contains
"date" (case-insensitively) and whose "new" value is the empty string or
"not mentioned" (case-insensitively) has its "new" value overwritten with
today's date string; any field not meeting both conditions is returned
unchanged. -/
theorem date_fallback_spec (today : Str) :
    (∀ k fields s, (dictGet fields (toL "new")).getD (JValue.str []) = JValue.str s →
      containsSub (toL "date") (lowerL k) = true →
      (s = [] ∨ lowerL s = toL "not mentioned") →
      dateFallbackStep today (k, JValue.obj fields) =
        (k, JValue.obj (dictSet fields (toL "new") (JValue.str today)))) ∧
    (∀ k fields s, (dictGet fields (toL "new")).getD (JValue.str []) = JValue.str s →
      (containsSub (toL "date") (lowerL k) = false ∨
        (s ≠ [] ∧ lowerL s ≠ toL "not mentioned")) →
      dateFallbackStep today (k, JValue.obj fields) = (k, JValue.obj fields)) ∧
    (∀ inferred, applyDateFallback today inferred =
      inferred.map (dateFallbackStep today)) := by
  refine ⟨?_, ?_, fun inferred => rfl⟩
  · intro k fields s hnew hdate hcond
    rw [dateFallbackStep]
    dsimp only
    rw [hnew]
    have hval : jvFalsy (JValue.str s) = true ∨ isNotMentioned (JValue.str s) = true := by
      rcases hcond with rfl | hnm
      · exact Or.inl rfl
      · exact Or.inr (by simp [isNotMentioned, hnm])
    rw [if_pos ⟨hdate, hval⟩]
  · intro k fields s hnew hcond
    rw [dateFallbackStep]
    dsimp only
    rw [hnew]
    rw [if_neg ?_]
    rintro ⟨hdate, hval⟩
    rcases hcond with hd | ⟨hne, hnm⟩
    · rw [hd] at hdate
      cases hdate
    · rcases hval with hf | hm
      · have : s = [] := by simpa [jvFalsy, List.isEmpty_iff] using hf
        exact hne this
      · have : lowerL s = toL "not mentioned" := by
          simpa [isNotMentioned] using hm
        exact hnm this

/-- C6 witness: the field "Review Date" with new value "Not mentioned" is
overwritten with today's date, while "Diagnosis" with the same value is
left unchanged. -/
theorem date_fallback_spec_witness :
    dateFallbackStep (toL "2026-10-12") (toL "Review Date",
        JValue.obj [(toL "original", JValue.str (toL "2026-01-01")),
          (toL "new", JValue.str (toL "Not mentioned"))]) =
      (toL "Review Date",
        JValue.obj [(toL "original", JValue.str (toL "2026-01-01")),
          (toL "new", JValue.str (toL "2026-10-12"))]) ∧
    dateFallbackStep (toL "2026-10-12") (toL "Diagnosis",
        JValue.obj [(toL "new", JValue.str (toL "Not mentioned"))]) =
      (toL "Diagnosis", JValue.obj [(toL "new", JValue.str (toL "Not mentioned"))]) := by
  constructor
  · exact ((date_fallback_spec (toL "2026-10-12")).1 (toL "Review Date")
      [(toL "original", JValue.str (toL "2026-01-01")),
        (toL "new", JValue.str (toL "Not mentioned"))]
      (toL "Not mentioned") rfl rfl (Or.inr rfl)).trans (by rfl)
  · exact (date_fallback_spec (toL "2026-10-12")).2.1 (toL "Diagnosis")
      [(toL "new", JValue.str (toL "Not mentioned"))]
      (toL "Not mentioned") rfl (Or.inl rfl)

/-- C7: field-value normalisation.  After the flatten-and-stringify loop
every value is a string, keys are unchanged, and the individual cases
follow the source: an all-string list is joined with ", ", any other list
and every dict becomes its JSON serialisation, null becomes the empty
string, a string stays itself, and other scalars become their Python
string form. -/
theorem normalize_values_spec :
    (∀ kvs : List (Str × JValue), ∀ kv ∈ normalizeParsedData kvs,
      ∃ s, kv.2 = JValue.str s) ∧
    (∀ kvs : List (Str × JValue),
      (normalizeParsedData kvs).map Prod.fst = kvs.map Prod.fst) ∧
    (∀ xs : List JValue, xs.all isStr = true →
      normalizeValue (JValue.arr xs) =
        JValue.str (joinSep (toL ", ") (xs.map strOfJ))) ∧
    (∀ xs : List JValue, xs.all isStr = false →
      normalizeValue (JValue.arr xs) = JValue.str (dumps (JValue.arr xs))) ∧
    (∀ fs : List (Str × JValue),
      normalizeValue (JValue.obj fs) = JValue.str (dumps (JValue.obj fs))) ∧
    (normalizeValue JValue.null = JValue.str []) ∧
    (∀ s : Str, normalizeValue (JValue.str s) = JValue.str s) ∧
    (∀ n : Int, normalizeValue (JValue.num n) = JValue.str (pyStr (JValue.num n))) ∧
    (∀ b : Bool, normalizeValue (JValue.bool b) = JValue.str (pyStr (JValue.bool b))) := by
  refine ⟨?_, ?_, ?_, ?_, fun fs => rfl, rfl, fun s => rfl, fun n => rfl, fun b => ?_⟩
  · intro kvs kv hkv
    obtain ⟨kv0, _, rfl⟩ := List.mem_map.mp hkv
    exact normalizeValue_isStr kv0.2
  · intro kvs
    rw [normalizeParsedData, List.map_map]
    rfl
  · intro xs h
    simp [normalizeValue, h]
  · intro xs h
    simp [normalizeValue, h]
  · cases b <;> rfl

/-- C7 witness: ["cough", "fever"] becomes "cough, fever" and the
object `{"a": 1}` becomes the JSON text string. -/
theorem normalize_values_spec_witness :
    [JValue.str (toL "cough"), JValue.str (toL "fever")].all isStr = true ∧
    normalizeValue (JValue.arr [JValue.str (toL "cough"), JValue.str (toL "fever")]) =
      JValue.str (toL "cough, fever") ∧
    normalizeValue (JValue.obj [(toL "a", JValue.num 1)]) =
      JValue.str (toL "\x7b\"a\": 1\x7d") := by
  refine ⟨rfl, ?_, ?_⟩
  · exact (normalize_values_spec.2.2.1
      [JValue.str (toL "cough"), JValue.str (toL "fever")] rfl).trans (by rfl)
  · exact (normalize_values_spec.2.2.2.2.1 [(toL "a", JValue.num 1)]).trans (by rfl)

/-- C8: idempotence of the literal-span pass.  If after one application
no paragraph of the resulting document (body or table cell) contains any
spec's original value, a second application with the same field specs and
field values changes nothing. -/
theorem literal_pass_idempotent (clean : List (Str × Str))
    (reps : List (Str × FieldMeta)) (d : Document)
    (h : ∀ fm ∈ reps, ∀ o, fm.2.original = some o →
      ∀ p ∈ allParagraphs (smartReplacePass clean reps d),
        containsSub o p.text = false) :
    smartReplacePass clean reps (smartReplacePass clean reps d) =
      smartReplacePass clean reps d :=
  smartReplacePass_idem_aux clean reps _ h

/-- C8 witness: after replacing "ALICE" by "Bob" everywhere, a second run
of the pass leaves the document unchanged. -/
theorem literal_pass_idempotent_witness :
    smartReplacePass [(toL "Name", toL "Bob")] aliceReps
        (smartReplacePass [(toL "Name", toL "Bob")] aliceReps aliceDoc) =
      smartReplacePass [(toL "Name", toL "Bob")] aliceReps aliceDoc := by
  apply literal_pass_idempotent
  intro fm hfm o ho p hp
  rcases List.mem_singleton.mp (by simpa [aliceReps] using hfm) with rfl
  injection ho with ho
  subst ho
  exact (by decide : ∀ p ∈ allParagraphs
      (smartReplacePass [(toL "Name", toL "Bob")] aliceReps aliceDoc),
    containsSub (toL "ALICE") p.text = false) p hp

/-- C9: untouched-paragraph frame guarantee.  A body paragraph containing
no `[` and no supplied field spec's original value is returned by fill at
the same position, completely unmodified (same runs, texts and bold
settings); a table-cell paragraph not containing any original value is
likewise returned unmodified at its position. -/
theorem fill_untouched_paragraphs (doc : Document)
    (filled_data : List (Str × JValue))
    (replacements : Option (List (Str × FieldMeta))) :
    (∀ i p, doc.paragraphs.get? i = some p → '[' ∉ p.text →
      (∀ reps, replacements = some reps → ∀ fm ∈ reps, ∀ o,
        fm.2.original = some o → containsSub o p.text = false) →
      (generate_filled_docx doc filled_data replacements).paragraphs.get? i = some p) ∧
    (∀ ti ri ci pi t r c p,
      doc.tables.get? ti = some t → t.rows.get? ri = some r →
      r.cells.get? ci = some c → c.paragraphs.get? pi = some p →
      (∀ reps, replacements = some reps → ∀ fm ∈ reps, ∀ o,
        fm.2.original = some o → containsSub o p.text = false) →
      ∃ t' r' c',
        (generate_filled_docx doc filled_data replacements).tables.get? ti = some t' ∧
        t'.rows.get? ri = some r' ∧ r'.cells.get? ci = some c' ∧
        c'.paragraphs.get? pi = some p) :=
  ⟨fun i p hp hbr h => generate_body_at doc filled_data replacements i p hp hbr h,
   fun ti ri ci pi t r c p ht hr hc hp h =>
     generate_cell_at doc filled_data replacements ti ri ci pi t r c p ht hr hc hp h⟩

/-- C9 witness: a body paragraph "Hello world" and a table-cell paragraph
"Cell text", with a field spec whose original "ZZZ" occurs nowhere, are
returned identical by fill. -/
theorem fill_untouched_paragraphs_witness :
    (generate_filled_docx plainDoc []
        (some [(toL "Name", ⟨some (toL "ZZZ"), some (toL "q")⟩)])).paragraphs.get? 0 =
      some ⟨[⟨toL "Hello world", none⟩]⟩ ∧
    ∃ t' r' c',
      (generate_filled_docx plainDoc []
          (some [(toL "Name", ⟨some (toL "ZZZ"), some (toL "q")⟩)])).tables.get? 0 = some t' ∧
      t'.rows.get? 0 = some r' ∧ r'.cells.get? 0 = some c' ∧
      c'.paragraphs.get? 0 = some ⟨[⟨toL "Cell text", none⟩]⟩ := by
  have hbody : ∀ reps, (some [((toL "Name" : Str),
        (⟨some (toL "ZZZ"), some (toL "q")⟩ : FieldMeta))]) = some reps →
      ∀ fm ∈ reps, ∀ o, fm.2.original = some o →
        containsSub o (toL "Hello world") = false := by
    intro reps hre
    injection hre with hre
    subst hre
    intro fm hfm o ho
    rcases List.mem_singleton.mp hfm with rfl
    injection ho with ho
    subst ho
    decide
  have hcell : ∀ reps, (some [((toL "Name" : Str),
        (⟨some (toL "ZZZ"), some (toL "q")⟩ : FieldMeta))]) = some reps →
      ∀ fm ∈ reps, ∀ o, fm.2.original = some o →
        containsSub o (toL "Cell text") = false := by
    intro reps hre
    injection hre with hre
    subst hre
    intro fm hfm o ho
    rcases List.mem_singleton.mp hfm with rfl
    injection ho with ho
    subst ho
    decide
  constructor
  · exact (fill_untouched_paragraphs plainDoc []
      (some [(toL "Name", ⟨some (toL "ZZZ"), some (toL "q")⟩)])).1 0
      ⟨[⟨toL "Hello world", none⟩]⟩ rfl (by decide) hbody
  · exact (fill_untouched_paragraphs plainDoc []
      (some [(toL "Name", ⟨some (toL "ZZZ"), some (toL "q")⟩)])).2 0 0 0 0
      ⟨[⟨[⟨[⟨[⟨toL "Cell text", none⟩]⟩]⟩]⟩]⟩ ⟨[⟨[⟨[⟨toL "Cell text", none⟩]⟩]⟩]⟩
      ⟨[⟨[⟨toL "Cell text", none⟩]⟩]⟩ ⟨[⟨toL "Cell text", none⟩]⟩
      rfl rfl rfl rfl hcell

/-- C10: the literal-span pass skips any field spec whose original value
is missing, null or empty — removing such a spec from the replacements
mapping does not change the result of the pass at all, so an empty
original never triggers empty-substring replacement and a missing
original never raises. -/
theorem literal_pass_skips_empty_original (clean : List (Str × Str))
    (reps1 reps2 : List (Str × FieldMeta)) (f : Str) (m : FieldMeta)
    (d : Document) (h : m.original = none ∨ m.original = some []) :
    smartReplacePass clean (reps1 ++ (f, m) :: reps2) d =
      smartReplacePass clean (reps1 ++ reps2) d := by
  show List.foldl _ _ _ = List.foldl _ _ _
  rw [List.foldl_append, List.foldl_append, List.foldl_cons,
    smartReplaceStep_skip clean _ f m h]

/-- C10 witness: a spec with empty original value is skipped and the
document is unchanged. -/
theorem literal_pass_skips_empty_original_witness :
    smartReplacePass [] ([] ++ (toL "Name", ⟨some [], some (toL "X")⟩) :: []) plainDoc =
      smartReplacePass [] ([] ++ []) plainDoc ∧
    smartReplacePass [] [(toL "Name", ⟨some [], some (toL "X")⟩)] plainDoc = plainDoc :=
  ⟨literal_pass_skips_empty_original [] [] [] (toL "Name")
    ⟨some [], some (toL "X")⟩ plainDoc (Or.inr rfl), by decide⟩
